import Mathlib

/-!
Verification of the complex-intersection module of OSM2GMNS
(src/osm2gmns/osmnet/complex_intersection.py).

The Python code mutates a shared object graph: a `Network` owns a dict from
node id to `Node` and from link id to `Link`; nodes hold lists of incident
link references and links hold references to their endpoint nodes.  The
shallow embedding below represents every cross-reference by the identifier
of the referenced object, so the dicts are insertion-ordered association
lists (`List (Nat x ...)`) and rewiring a link endpoint is an in-place
update of the link dict.  Under the well-formedness conditions stated by
the specification (unique keys, key = stored id, incident links listed on
their endpoints, identifier counters minting fresh ids) this is exactly
the Python reference semantics; the correspondence is discussed at the
definitions that rely on it.

Floating point coordinates are modelled as rationals and Python `round`
as round-half-to-even on exact rationals.
-/

namespace OsmComplexIntersection

/-- A node of the macroscopic network.

Modelled from the spec: the `Node` class itself lives in
`osm2gmns/networkclass/macronet.py`, which is outside the given sources;
its fields and constructor defaults are taken from section 3 of the spec
(DATA MODEL) and from the accesses performed by `complex_intersection.py`:
`Node(node_id)` creates a node with the given identifier, no group
identifier (`main_node_id` unset), no control type, empty incident link
lists.  Coordinates (`geometry`, `geometry_xy`) are flattened into their
x/y components. -/
structure Node where
  node_id : Nat
  osm_node_id : String
  main_node_id : Option Nat
  ctrl_type : Option String
  x : ℚ
  y : ℚ
  xy_x : ℚ
  xy_y : ℚ
  incoming_link_list : List Nat
  outgoing_link_list : List Nat
  osm_highway : Option String
  deriving DecidableEq, Repr

/-- A directed link; `from_node` and `to_node` are node identifiers
(references to nodes in the Python source). -/
structure Link where
  link_id : Nat
  from_node : Nat
  to_node : Nat
  length : ℚ
  deriving DecidableEq, Repr

/-- The network: insertion-ordered dictionaries of nodes and links plus the
fresh-identifier counters. -/
structure Network where
  node_dict : List (Nat × Node)
  link_dict : List (Nat × Link)
  max_node_id : Nat
  max_main_node_id : Nat
  deriving DecidableEq, Repr

/-- Python dict read `d[k]` (first matching key; keys are unique in a real
dict). -/
def dictLookup {α : Type} : List (Nat × α) → Nat → Option α
  | [], _ => none
  | p :: rest, k => if p.1 = k then some p.2 else dictLookup rest k

/-- Python dict write `d[k] = v`: replaces the value at an existing key in
place (keeping its position, as Python dicts do), otherwise appends the new
key at the end. -/
def dictSet {α : Type} : List (Nat × α) → Nat → α → List (Nat × α)
  | [], k, v => [(k, v)]
  | p :: rest, k, v => if p.1 = k then (k, v) :: rest else p :: dictSet rest k v

/-! ## Cluster detection (`_identifyComplexIntersections`)

The Python function builds a list of candidate node groups (sets of node
references, here sets of node ids) with a parallel activity-status list,
repeatedly merges overlapping active groups until a full pass changes no
count, then stamps a fresh `main_node_id` on the members of each surviving
group.  Candidate groups are paired with their status flag. -/

/-- The body of the candidate-collection loop, for one link: the link
contributes the group consisting of its endpoints when its length does not
exceed the buffer, both endpoint nodes carry no `main_node_id`, and both
are signal controlled (lines 33-38 of the source).  Endpoint attributes
are read through the node dict, which is where the referenced node objects
live. -/
def groupOfLink (network : Network) (int_buffer : ℚ) (link : Link) :
    Option (Finset Nat × Bool) :=
  match dictLookup network.node_dict link.from_node,
        dictLookup network.node_dict link.to_node with
  | some fn, some tn =>
      if link.length > int_buffer then none
      else if fn.main_node_id = none ∧ tn.main_node_id = none then
        if fn.ctrl_type = some "signal" ∧ tn.ctrl_type = some "signal" then
          some ({link.from_node, link.to_node}, true)
        else none
      else none
  | _, _ => none

/-- The initial `group_list` with every `group_status` entry set to 1. -/
def initialGroups (network : Network) (int_buffer : ℚ) :
    List (Finset Nat × Bool) :=
  network.link_dict.filterMap (fun pr => groupOfLink network int_buffer pr.2)

/-- One comparison of the inner merging loop: for indices `i` (outer) and
`j` (inner), when both groups are active, distinct, and overlap, group `j`
is merged into group `i` and deactivated (lines 42-49).  The status of the
outer group cannot change during its inner scan, so re-checking it here is
equivalent to the single check the Python code performs on entry. -/
def innerStep (gs : List (Finset Nat × Bool)) (i j : Nat) :
    List (Finset Nat × Bool) :=
  if i = j then gs else
  match gs[i]?, gs[j]? with
  | some gi, some gj =>
      if gi.2 = true ∧ gj.2 = true ∧ (gi.1 ∩ gj.1).Nonempty then
        (gs.set i (gi.1 ∪ gj.1, true)).set j (gj.1, false)
      else gs
  | _, _ => gs

/-- One full pass of the double scan over all index pairs. -/
def mergePass (gs : List (Finset Nat × Bool)) : List (Finset Nat × Bool) :=
  (List.range gs.length).foldl
    (fun s i => (List.range gs.length).foldl (fun t j => innerStep t i j) s)
    gs

/-- `sum(group_status)`. -/
def countActive (gs : List (Finset Nat × Bool)) : Nat :=
  (gs.filter (fun g => g.2)).length

/-- The `while True` merging loop, with explicit fuel.  The Python loop
stops as soon as a pass leaves the number of active groups unchanged; the
count is bounded by the list length and strictly decreases on every
continuing iteration, so `countActive gs + 1` units of fuel always reach
the stopping condition (proved below in `mergeLoopFuel_fix`). -/
def mergeLoopFuel : Nat → List (Finset Nat × Bool) → List (Finset Nat × Bool)
  | 0, gs => gs
  | fuel + 1, gs =>
      let gs' := mergePass gs
      if countActive gs' = countActive gs then gs' else mergeLoopFuel fuel gs'

/-- The merging loop as executed by the source (fuel is sufficient). -/
def mergeLoop (gs : List (Finset Nat × Bool)) : List (Finset Nat × Bool) :=
  mergeLoopFuel (countActive gs + 1) gs

/-- The fully merged group configuration produced by detection before ids
are assigned. -/
def detectGroups (network : Network) (int_buffer : ℚ) :
    List (Finset Nat × Bool) :=
  mergeLoop (initialGroups network int_buffer)

/-- The assignment loop (lines 57-62): every member of each surviving
active group receives a freshly minted `main_node_id`, and the counter is
advanced once per surviving group.  Returns the updated node dict and the
final counter value. -/
def assignMainNodeIds (gs : List (Finset Nat × Bool))
    (nodes : List (Nat × Node)) (base : Nat) : List (Nat × Node) × Nat :=
  gs.foldl
    (fun acc g =>
      if g.2 then
        (acc.1.map (fun p =>
          if p.1 ∈ g.1 then (p.1, { p.2 with main_node_id := some acc.2 })
          else p), acc.2 + 1)
      else acc)
    (nodes, base)

/-- `_identifyComplexIntersections` : detection mutates only the nodes'
`main_node_id` fields and the network's `max_main_node_id` counter. -/
def identifyComplexIntersections (network : Network) (int_buffer : ℚ) :
    Network :=
  let gs := detectGroups network int_buffer
  let res := assignMainNodeIds gs network.node_dict network.max_main_node_id
  { network with node_dict := res.1, max_main_node_id := res.2 }

/-! ## Consolidation (`consolidateComplexIntersections`)

Python floats are modelled as rationals; `round(x, prec)` is Python's
round-half-to-even, applied to the exact rational value. -/

/-- Round-half-to-even to an integer (the tie-breaking rule of Python's
built-in `round`). -/
def roundHalfEven (q : ℚ) : ℤ :=
  if q - ⌊q⌋ < 1 / 2 then ⌊q⌋
  else if 1 / 2 < q - ⌊q⌋ then ⌊q⌋ + 1
  else if 2 ∣ ⌊q⌋ then ⌊q⌋ else ⌊q⌋ + 1

/-- `round(q, prec)` : round to `prec` decimal places, half to even. -/
def pyRound (prec : Nat) (q : ℚ) : ℚ :=
  (roundHalfEven (q * 10 ^ prec) : ℚ) / 10 ^ prec

/-- Append a node to the member list of `main_node_id` key `k`, creating
the entry when absent (lines 91-99 build `node_group_dict` this way). -/
def dictAppend : List (Nat × List Node) → Nat → Node → List (Nat × List Node)
  | [], k, nd => [(k, [nd])]
  | p :: rest, k, nd =>
      if p.1 = k then (k, p.2 ++ [nd]) :: rest else p :: dictAppend rest k nd

/-- `node_group_dict`: partition the nodes carrying a `main_node_id` into
groups keyed by that identifier, in node-dict order.  The member lists
store the node values themselves; this matches the Python object
references since consolidation never mutates a pre-existing node object.
(The parallel `node_group_ctrl_type_dict` is recovered as an `any` over
the member list, which computes the same group-level OR.) -/
def buildNodeGroups (nodes : List (Nat × Node)) : List (Nat × List Node) :=
  nodes.foldl
    (fun acc p =>
      match p.2.main_node_id with
      | some m => dictAppend acc m p.2
      | none => acc)
    []

/-- The mutable state threaded through group processing: the two dicts,
the `max_node_id` counter and the two removal sets (Python sets of objects,
here sets of their unique identifiers). -/
structure ConsState where
  node_dict : List (Nat × Node)
  link_dict : List (Nat × Link)
  max_node_id : Nat
  removal_node_set : Finset Nat
  removal_link_set : Finset Nat
  deriving DecidableEq

/-- The accumulators local to one group: the collected osm ids, the four
coordinate sums, the new node's incident-link lists and the last-written
highway tag. -/
structure NewAcc where
  osm_ids : List String
  x_sum : ℚ
  y_sum : ℚ
  xy_x_sum : ℚ
  xy_y_sum : ℚ
  new_in : List Nat
  new_out : List Nat
  highway : Option String
  deriving DecidableEq, Repr

/-- Lines 125-131: one incoming link of a member.  The link object is read
from the link dict (where the referenced object lives); an intra-group
link is marked for removal, an external one has its destination endpoint
rewired to the new node and is appended to the new node's incoming list.
Membership of the endpoint in `node_group` is object identity in Python;
with unique live identifiers it is identity of the stored node ids. -/
def procIn (memberIds : List Nat) (newId : Nat) (p : ConsState × NewAcc)
    (lid : Nat) : ConsState × NewAcc :=
  match dictLookup p.1.link_dict lid with
  | none => p
  | some link =>
      if link.from_node ∈ memberIds then
        ({ p.1 with removal_link_set := insert lid p.1.removal_link_set }, p.2)
      else
        ({ p.1 with link_dict :=
              dictSet p.1.link_dict lid { link with to_node := newId } },
         { p.2 with new_in := p.2.new_in ++ [lid] })

/-- Lines 132-138: one outgoing link of a member (symmetric to `procIn`). -/
def procOut (memberIds : List Nat) (newId : Nat) (p : ConsState × NewAcc)
    (lid : Nat) : ConsState × NewAcc :=
  match dictLookup p.1.link_dict lid with
  | none => p
  | some link =>
      if link.to_node ∈ memberIds then
        ({ p.1 with removal_link_set := insert lid p.1.removal_link_set }, p.2)
      else
        ({ p.1 with link_dict :=
              dictSet p.1.link_dict lid { link with from_node := newId } },
         { p.2 with new_out := p.2.new_out ++ [lid] })

/-- Lines 116-140: the body of `for node in node_group`: mark the member
for removal, collect its osm id and coordinates, process its incident
links, and overwrite the new node's highway tag (last member wins). -/
def processMember (memberIds : List Nat) (newId : Nat)
    (p : ConsState × NewAcc) (nd : Node) : ConsState × NewAcc :=
  let p1 : ConsState × NewAcc :=
    ({ p.1 with removal_node_set := insert nd.node_id p.1.removal_node_set },
     { p.2 with
        osm_ids := p.2.osm_ids ++ [nd.osm_node_id],
        x_sum := p.2.x_sum + nd.x,
        y_sum := p.2.y_sum + nd.y,
        xy_x_sum := p.2.xy_x_sum + nd.xy_x,
        xy_y_sum := p.2.xy_y_sum + nd.xy_y })
  let p2 := nd.incoming_link_list.foldl (procIn memberIds newId) p1
  let p3 := nd.outgoing_link_list.foldl (procOut memberIds newId) p2
  (p3.1, { p3.2 with highway := nd.osm_highway })

/-- Lines 104-151: process one group.  Groups with fewer than 2 members
are skipped.  Otherwise a new node is minted at the current `max_node_id`,
the members are folded over, the new node is assembled (joined osm ids,
rounded mean coordinates, group-OR control type) and registered in the
node dict, and the counter is advanced. -/
def processGroup (lonlatPrec localPrec : Nat) (st : ConsState)
    (g : Nat × List Node) : ConsState :=
  if g.2.length < 2 then st
  else
    let newId := st.max_node_id
    let memberIds := g.2.map Node.node_id
    let init : NewAcc := ⟨[], 0, 0, 0, 0, [], [], none⟩
    let res := g.2.foldl (processMember memberIds newId) (st, init)
    let newNode : Node :=
      { node_id := newId
        osm_node_id := String.intercalate "_" res.2.osm_ids
        main_node_id := some g.1
        ctrl_type :=
          if g.2.any (fun nd => nd.ctrl_type = some "signal") then
            some "signal"
          else none
        x := pyRound lonlatPrec (res.2.x_sum / g.2.length)
        y := pyRound lonlatPrec (res.2.y_sum / g.2.length)
        xy_x := pyRound localPrec (res.2.xy_x_sum / g.2.length)
        xy_y := pyRound localPrec (res.2.xy_y_sum / g.2.length)
        incoming_link_list := res.2.new_in
        outgoing_link_list := res.2.new_out
        osm_highway := res.2.highway }
    { res.1 with
        node_dict := dictSet res.1.node_dict newId newNode,
        max_node_id := st.max_node_id + 1 }

/-- Lines 89-155 with the group partition passed explicitly: process every
group, then delete the marked nodes and links from the dicts (`del` by
key, deferred to the end as in the source). -/
def consolidateGroups (lonlatPrec localPrec : Nat)
    (glist : List (Nat × List Node)) (network : Network) : Network :=
  let st0 : ConsState :=
    ⟨network.node_dict, network.link_dict, network.max_node_id, ∅, ∅⟩
  let st := glist.foldl (processGroup lonlatPrec localPrec) st0
  { network with
      node_dict := st.node_dict.filter (fun p => p.1 ∉ st.removal_node_set),
      link_dict := st.link_dict.filter (fun p => p.1 ∉ st.removal_link_set),
      max_node_id := st.max_node_id }

/-- The consolidation phase (everything after the optional detection call):
partition by `main_node_id`, process the groups in partition order, delete
the removed entries. -/
def consolidatePhase (lonlatPrec localPrec : Nat) (network : Network) :
    Network :=
  consolidateGroups lonlatPrec localPrec
    (buildNodeGroups network.node_dict) network

/-- `consolidateComplexIntersections`.  The rounding precisions are the
process-wide settings `lonlat_coord_precision` and `local_coord_precision`;
`osm2gmns/settings.py` is outside the given sources, so, following section
6 of the spec (configuration consumed by the core), they are passed as
explicit parameters.  The `verbose` progress print is omitted as pure
output. -/
def consolidateComplexIntersections (network : Network)
    (auto_identify : Bool) (int_buffer : ℚ) (lonlatPrec localPrec : Nat) :
    Network :=
  let network' :=
    if auto_identify then identifyComplexIntersections network int_buffer
    else network
  consolidatePhase lonlatPrec localPrec network'

/-! ## Well-formedness of a network

Section 3 of the spec (DATA MODEL): dict keys are unique and equal to the
stored identifiers, nodes list exactly their incident links, every link is
listed on both of its endpoints, and `max_node_id` is a monotonically
increasing counter minting fresh identifiers (so it exceeds every existing
node id).  Under these conditions the id-based embedding coincides with
Python's object-identity semantics. -/

/-- The link `lid` exists and ends at node id `k`. -/
def linkToIs (links : List (Nat × Link)) (lid k : Nat) : Bool :=
  match dictLookup links lid with
  | some l => l.to_node = k
  | none => false

/-- The link `lid` exists and starts at node id `k`. -/
def linkFromIs (links : List (Nat × Link)) (lid k : Nat) : Bool :=
  match dictLookup links lid with
  | some l => l.from_node = k
  | none => false

/-- The node `k` exists and lists `lid` among its incoming links. -/
def inIncomingOf (nodes : List (Nat × Node)) (k lid : Nat) : Bool :=
  match dictLookup nodes k with
  | some nd => lid ∈ nd.incoming_link_list
  | none => false

/-- The node `k` exists and lists `lid` among its outgoing links. -/
def inOutgoingOf (nodes : List (Nat × Node)) (k lid : Nat) : Bool :=
  match dictLookup nodes k with
  | some nd => lid ∈ nd.outgoing_link_list
  | none => false

/-- Well-formedness of the input graph (spec section 3). -/
def Network.wf (net : Network) : Prop :=
  (net.node_dict.map Prod.fst).Nodup ∧
  (∀ p ∈ net.node_dict, p.2.node_id = p.1) ∧
  (net.link_dict.map Prod.fst).Nodup ∧
  (∀ p ∈ net.link_dict, p.2.link_id = p.1) ∧
  (∀ p ∈ net.node_dict, p.2.incoming_link_list.Nodup ∧
    p.2.outgoing_link_list.Nodup) ∧
  (∀ p ∈ net.node_dict, ∀ lid ∈ p.2.incoming_link_list,
    linkToIs net.link_dict lid p.1 = true) ∧
  (∀ p ∈ net.node_dict, ∀ lid ∈ p.2.outgoing_link_list,
    linkFromIs net.link_dict lid p.1 = true) ∧
  (∀ p ∈ net.link_dict, inIncomingOf net.node_dict p.2.to_node p.1 = true) ∧
  (∀ p ∈ net.link_dict, inOutgoingOf net.node_dict p.2.from_node p.1 = true) ∧
  (∀ p ∈ net.node_dict, p.1 < net.max_node_id)

instance (net : Network) : Decidable net.wf := by
  unfold Network.wf
  infer_instance

/-! ## Closed forms for the result of consolidation

The following definitions give, for a prefix `done` of the processed group
list, the exact contents of the consolidation state: which replacement
node each big (size at least 2) group produced, where every link endpoint
points, and which entries are marked for removal.  They are related to the
executable definitions by the invariance theorems below. -/

/-- The identifiers of the members of a group. -/
def idsOf (mem : List Node) : List Nat := mem.map Node.node_id

/-- Value of a link endpoint `e` (whose opposite endpoint is `partner`)
after the groups in `done` have been processed, `base` being the id minted
for the first big group of `done`: the endpoint is rewired to a group's
replacement id exactly when it belongs to a big group that does not also
contain the opposite endpoint (intra-group links are marked for removal
but never rewired). -/
def epAfter (base : Nat) (done : List (Nat × List Node)) (e partner : Nat) :
    Nat :=
  match done with
  | [] => e
  | g :: rest =>
      if 2 ≤ g.2.length then
        if e ∈ idsOf g.2 ∧ partner ∉ idsOf g.2 then base
        else epAfter (base + 1) rest e partner
      else epAfter base rest e partner

/-- An incoming link of a member is appended to the new node's incoming
list exactly when its source endpoint lies outside the group. -/
def testExternalIn (links : List (Nat × Link)) (ids : List Nat) (lid : Nat) :
    Bool :=
  match dictLookup links lid with
  | some l => l.from_node ∉ ids
  | none => false

/-- Outgoing counterpart of `testExternalIn`. -/
def testExternalOut (links : List (Nat × Link)) (ids : List Nat) (lid : Nat) :
    Bool :=
  match dictLookup links lid with
  | some l => l.to_node ∉ ids
  | none => false

/-- The highway tag of the last member (last write wins). -/
def lastHighwayOf (mem : List Node) : Option String :=
  match mem.getLast? with
  | some nd => nd.osm_highway
  | none => none

/-- Closed form of the replacement node built for a big group `g` minted
with identifier `newId`, in terms of the original link dict. -/
def replNode (lonlatPrec localPrec : Nat) (links : List (Nat × Link))
    (g : Nat × List Node) (newId : Nat) : Node :=
  { node_id := newId
    osm_node_id := String.intercalate "_" (g.2.map Node.osm_node_id)
    main_node_id := some g.1
    ctrl_type :=
      if g.2.any (fun nd => nd.ctrl_type = some "signal") then some "signal"
      else none
    x := pyRound lonlatPrec ((g.2.map Node.x).sum / g.2.length)
    y := pyRound lonlatPrec ((g.2.map Node.y).sum / g.2.length)
    xy_x := pyRound localPrec ((g.2.map Node.xy_x).sum / g.2.length)
    xy_y := pyRound localPrec ((g.2.map Node.xy_y).sum / g.2.length)
    incoming_link_list :=
      g.2.flatMap (fun nd =>
        nd.incoming_link_list.filter (testExternalIn links (idsOf g.2)))
    outgoing_link_list :=
      g.2.flatMap (fun nd =>
        nd.outgoing_link_list.filter (testExternalOut links (idsOf g.2)))
    osm_highway := lastHighwayOf g.2 }

/-- Number of big groups in a group list. -/
def bigCount (l : List (Nat × List Node)) : Nat :=
  (l.filter (fun g => 2 ≤ g.2.length)).length

/-- The replacement-node entries appended to the node dict by the groups
of `done`, the first big group receiving id `base`. -/
def replList (lonlatPrec localPrec : Nat) (links : List (Nat × Link))
    (base : Nat) : List (Nat × List Node) → List (Nat × Node)
  | [] => []
  | g :: rest =>
      if 2 ≤ g.2.length then
        (base, replNode lonlatPrec localPrec links g base) ::
          replList lonlatPrec localPrec links (base + 1) rest
      else replList lonlatPrec localPrec links base rest

/-- Apply a key-indexed transformation to every value of a dict. -/
def mapEntries {α : Type} (f : Nat → α → α) (d : List (Nat × α)) :
    List (Nat × α) :=
  d.map (fun p => (p.1, f p.1 p.2))

/-- Every active group of the first configuration is contained in some
active group of the second: the invariant maintained by the merging loop
(a deactivated group has just been absorbed into an active one). -/
abbrev coversTo (gs gs' : List (Finset Nat × Bool)) : Prop :=
  ∀ (k : Nat) (p : Finset Nat × Bool), gs[k]? = some p → p.2 = true →
    ∃ (k' : Nat) (p' : Finset Nat × Bool),
      gs'[k']? = some p' ∧ p'.2 = true ∧ p.1 ⊆ p'.1

/-- Closed form of the `main_node_id` a node with identifier `k` and
current value `m0` carries after the assignment loop runs over `gs`
starting from counter `base`: each active group overwrites the value of
its members with the id minted for it. -/
def assignedMain (gs : List (Finset Nat × Bool)) (base k : Nat)
    (m0 : Option Nat) : Option Nat :=
  (gs.foldl
    (fun pm g =>
      if g.2 then ((if k ∈ g.1 then some pm.2 else pm.1), pm.2 + 1) else pm)
    (m0, base)).1

/-- Mid-consolidation closed form of a link value: `inDone` (resp.
`outDone`) lists the link ids already scanned as incoming (resp. outgoing)
occurrences of a member of the group currently being processed, `memIds`
the member ids of that group, `newId` the id minted for it; `done` the
groups already fully processed.  An endpoint is rewired to `newId` once
its owning member's list containing the link has been scanned and the link
is external to the group. -/
def linkF (base : Nat) (done : List (Nat × List Node)) (memIds : List Nat)
    (inDone outDone : List Nat) (newId : Nat) : Nat → Link → Link :=
  fun a l =>
    { l with
        from_node :=
          if a ∈ outDone ∧ l.to_node ∉ memIds then newId
          else epAfter base done l.from_node l.to_node,
        to_node :=
          if a ∈ inDone ∧ l.from_node ∉ memIds then newId
          else epAfter base done l.to_node l.from_node }

/-- Mid-consolidation characterisation of the link-removal set: a link is
marked either because both endpoints lie in one fully processed big group,
or because both lie in the group currently being processed and one of its
occurrences has already been scanned. -/
def remlF (links : List (Nat × Link)) (done : List (Nat × List Node))
    (memIds inDone outDone : List Nat) (b : Nat) : Prop :=
  (∃ g ∈ done, 2 ≤ g.2.length ∧ ∃ l, dictLookup links b = some l ∧
    l.from_node ∈ idsOf g.2 ∧ l.to_node ∈ idsOf g.2) ∨
  (∃ l, dictLookup links b = some l ∧ l.from_node ∈ memIds ∧
    l.to_node ∈ memIds ∧ (b ∈ inDone ∨ b ∈ outDone))

/-- Well-formedness of a group list with respect to the node dict it was
built from: members are stored dict entries carrying exactly the group's
key as `main_node_id`, group keys are unique, member ids are duplicate
free and below the fresh-id counter. -/
structure GroupsOK (nodes : List (Nat × Node)) (max₀ : Nat)
    (glist : List (Nat × List Node)) : Prop where
  mem_entry : ∀ g ∈ glist, ∀ nd ∈ g.2, (nd.node_id, nd) ∈ nodes
  mem_main : ∀ g ∈ glist, ∀ nd ∈ g.2, nd.main_node_id = some g.1
  keys_nodup : (glist.map Prod.fst).Nodup
  ids_nodup : ∀ g ∈ glist, (idsOf g.2).Nodup
  ids_lt : ∀ g ∈ glist, ∀ nd ∈ g.2, nd.node_id < max₀

/-- Invariant of the consolidation state after the groups in `done` have
been processed, relative to the original dicts. -/
structure ConsInv (p q : Nat) (nodes₀ : List (Nat × Node))
    (links₀ : List (Nat × Link)) (max₀ : Nat)
    (done : List (Nat × List Node)) (st : ConsState) : Prop where
  nodes_eq : st.node_dict = nodes₀ ++ replList p q links₀ max₀ done
  max_eq : st.max_node_id = max₀ + bigCount done
  remn : ∀ a : Nat, a ∈ st.removal_node_set ↔
    ∃ g ∈ done, 2 ≤ g.2.length ∧ a ∈ idsOf g.2
  reml : ∀ a : Nat, a ∈ st.removal_link_set ↔
    ∃ g ∈ done, 2 ≤ g.2.length ∧ ∃ l, dictLookup links₀ a = some l ∧
      l.from_node ∈ idsOf g.2 ∧ l.to_node ∈ idsOf g.2
  links_eq : st.link_dict = mapEntries (fun _ l =>
    { l with
        from_node := epAfter max₀ done l.from_node l.to_node,
        to_node := epAfter max₀ done l.to_node l.from_node }) links₀

/-- Invariant of the member loop of one big group, after the members in
`mdone` have been fully processed and the link-id occurrences in `inDone`
and `outDone` have been scanned. -/
structure MemSt (p q : Nat) (nodes₀ : List (Nat × Node))
    (links₀ : List (Nat × Link)) (max₀ : Nat)
    (done : List (Nat × List Node)) (memIds : List Nat) (newId : Nat)
    (mdone : List Node) (inDone outDone : List Nat)
    (s : ConsState × NewAcc) : Prop where
  nodes_eq : s.1.node_dict = nodes₀ ++ replList p q links₀ max₀ done
  max_eq : s.1.max_node_id = max₀ + bigCount done
  remn : ∀ a : Nat, a ∈ s.1.removal_node_set ↔
    (∃ g ∈ done, 2 ≤ g.2.length ∧ a ∈ idsOf g.2) ∨ a ∈ idsOf mdone
  reml : ∀ a : Nat, a ∈ s.1.removal_link_set ↔
    remlF links₀ done memIds inDone outDone a
  links_eq : s.1.link_dict =
    mapEntries (linkF max₀ done memIds inDone outDone newId) links₀
  osm_eq : s.2.osm_ids = mdone.map Node.osm_node_id
  x_eq : s.2.x_sum = (mdone.map Node.x).sum
  y_eq : s.2.y_sum = (mdone.map Node.y).sum
  xx_eq : s.2.xy_x_sum = (mdone.map Node.xy_x).sum
  yy_eq : s.2.xy_y_sum = (mdone.map Node.xy_y).sum
  in_eq : s.2.new_in = inDone.filter (testExternalIn links₀ memIds)
  out_eq : s.2.new_out = outDone.filter (testExternalOut links₀ memIds)
  hw_eq : s.2.highway = lastHighwayOf mdone

/-! ## Concrete example networks

Small networks used to evaluate the theorems on concrete inputs.  `exNet`
is the end-to-end scenario of the spec (section 8): four signalised nodes
in a chain, two short links and one long one. -/

/-- A node with the given id, group id, signal flag and coordinates, with
no incident links registered. -/
def mkNode (i : Nat) (main : Option Nat) (sig : Bool) (x y : ℚ) : Node :=
  { node_id := i, osm_node_id := toString i, main_node_id := main,
    ctrl_type := if sig then some "signal" else none,
    x := x, y := y, xy_x := x, xy_y := y,
    incoming_link_list := [], outgoing_link_list := [],
    osm_highway := some "primary" }

/-- A link with the given id, endpoints and length. -/
def mkLink (i f t : Nat) (len : ℚ) : Link :=
  { link_id := i, from_node := f, to_node := t, length := len }

/-- The spec's end-to-end scenario, before detection: chain 1-2-3-4 with
link lengths 5, 5, 50. -/
def exNet : Network :=
  { node_dict := [
      (1, { mkNode 1 none true 0 0 with outgoing_link_list := [10] }),
      (2, { mkNode 2 none true 1 0 with
              incoming_link_list := [10], outgoing_link_list := [11] }),
      (3, { mkNode 3 none true 2 0 with
              incoming_link_list := [11], outgoing_link_list := [12] }),
      (4, { mkNode 4 none true 50 0 with incoming_link_list := [12] })],
    link_dict := [(10, mkLink 10 1 2 5), (11, mkLink 11 2 3 5),
      (12, mkLink 12 3 4 50)],
    max_node_id := 5, max_main_node_id := 0 }

/-- Two disjoint short signal links: detection yields two surviving
groups. -/
def exNetPair : Network :=
  { node_dict := [
      (1, { mkNode 1 none true 0 0 with outgoing_link_list := [20] }),
      (2, { mkNode 2 none true 1 0 with incoming_link_list := [20] }),
      (3, { mkNode 3 none true 9 0 with outgoing_link_list := [21] }),
      (4, { mkNode 4 none true 10 0 with incoming_link_list := [21] })],
    link_dict := [(20, mkLink 20 1 2 1), (21, mkLink 21 3 4 1)],
    max_node_id := 5, max_main_node_id := 0 }

/-- The end-to-end scenario after grouping: nodes 1, 2, 3 share group 0,
node 4 is ungrouped; links 10, 11 are intra-group, link 12 leaves the
group. -/
def exNetG : Network :=
  { node_dict := [
      (1, { mkNode 1 (some 0) true 0 0 with outgoing_link_list := [10] }),
      (2, { mkNode 2 (some 0) true 1 0 with
              incoming_link_list := [10], outgoing_link_list := [11] }),
      (3, { mkNode 3 (some 0) true 2 0 with
              incoming_link_list := [11], outgoing_link_list := [12] }),
      (4, { mkNode 4 none true 50 0 with incoming_link_list := [12] })],
    link_dict := [(10, mkLink 10 1 2 5), (11, mkLink 11 2 3 5),
      (12, mkLink 12 3 4 50)],
    max_node_id := 5, max_main_node_id := 1 }

/-- Two groups of two nodes each, with one link crossing between them:
group 7 is nodes 1, 2 and group 8 is nodes 3, 4; link 30 runs from node 2
to node 3. -/
def exNetCross : Network :=
  { node_dict := [
      (1, { mkNode 1 (some 7) true 0 0 with outgoing_link_list := [31] }),
      (2, { mkNode 2 (some 7) true 1 0 with
              incoming_link_list := [31], outgoing_link_list := [30] }),
      (3, { mkNode 3 (some 8) true 5 0 with
              incoming_link_list := [30], outgoing_link_list := [32] }),
      (4, { mkNode 4 (some 8) true 6 0 with incoming_link_list := [32] })],
    link_dict := [(31, mkLink 31 1 2 1), (30, mkLink 30 2 3 4),
      (32, mkLink 32 3 4 1)],
    max_node_id := 9, max_main_node_id := 9 }

/-- A network whose `max_node_id` (5) differs from every node id, yet the
id minted for the second group (6) collides with an existing member's id:
nodes 0 and 1 form group 10, nodes 6 and 3 form group 11. -/
def exNetTen : Network :=
  { node_dict := [
      (0, mkNode 0 (some 10) false 0 0),
      (1, mkNode 1 (some 10) false 1 0),
      (6, mkNode 6 (some 11) false 2 0),
      (3, mkNode 3 (some 11) false 3 0)],
    link_dict := [], max_node_id := 5, max_main_node_id := 12 }

/-! ## Dictionary lemmas -/

theorem dictLookup_mem {α : Type} {d : List (Nat × α)} {k : Nat} {v : α}
    (h : dictLookup d k = some v) : (k, v) ∈ d := by
  induction d with
  | nil => simp [dictLookup] at h
  | cons p rest ih =>
      obtain ⟨pk, pv⟩ := p
      by_cases hk : pk = k
      · subst hk
        simp only [dictLookup, eq_self_iff_true, if_true,
          Option.some.injEq] at h
        subst h
        exact List.mem_cons_self _ _
      · simp only [dictLookup, hk, if_false, ite_false] at h
        exact List.mem_cons_of_mem _ (ih h)

theorem dictLookup_isSome_of_mem {α : Type} {d : List (Nat × α)} {k : Nat}
    {v : α} (h : (k, v) ∈ d) : (dictLookup d k).isSome := by
  induction d with
  | nil => simp at h
  | cons p rest ih =>
      rcases List.mem_cons.mp h with h1 | h2
      · simp [dictLookup, ← h1]
      · by_cases hk : p.1 = k
        · simp [dictLookup, hk]
        · simpa [dictLookup, hk] using ih h2

theorem dictLookup_eq_some_of_mem {α : Type} {d : List (Nat × α)} {k : Nat}
    {v : α} (hnd : (d.map Prod.fst).Nodup) (h : (k, v) ∈ d) :
    dictLookup d k = some v := by
  induction d with
  | nil => simp at h
  | cons p rest ih =>
      simp only [List.map_cons, List.nodup_cons] at hnd
      rcases List.mem_cons.mp h with h1 | h2
      · simp [dictLookup, ← h1]
      · have hk : p.1 ≠ k := by
          intro hk
          exact hnd.1 (hk ▸ (List.mem_map.mpr ⟨(k, v), h2, rfl⟩))
        simp only [dictLookup, hk, if_neg, not_false_iff]
        exact ih hnd.2 h2

theorem dictLookup_none_of_not_mem {α : Type} {d : List (Nat × α)} {k : Nat}
    (h : k ∉ d.map Prod.fst) : dictLookup d k = none := by
  induction d with
  | nil => rfl
  | cons p rest ih =>
      simp only [List.map_cons, List.mem_cons] at h
      push_neg at h
      have h1 : ¬ p.1 = k := fun hk => h.1 hk.symm
      simp only [dictLookup, h1, if_false, ite_false]
      exact ih h.2

theorem dictLookup_append {α : Type} (d1 d2 : List (Nat × α)) (k : Nat) :
    dictLookup (d1 ++ d2) k =
      match dictLookup d1 k with
      | some v => some v
      | none => dictLookup d2 k := by
  induction d1 with
  | nil => simp [dictLookup]
  | cons p rest ih =>
      by_cases hk : p.1 = k
      · simp [dictLookup, hk]
      · simpa [dictLookup, hk] using ih

theorem dictSet_of_not_mem {α : Type} {d : List (Nat × α)} {k : Nat} (v : α)
    (h : k ∉ d.map Prod.fst) : dictSet d k v = d ++ [(k, v)] := by
  induction d with
  | nil => rfl
  | cons p rest ih =>
      simp only [List.map_cons, List.mem_cons] at h
      push_neg at h
      have h1 : ¬ p.1 = k := fun hk => h.1 hk.symm
      simp only [dictSet, h1, if_false, ite_false, List.cons_append]
      exact congrArg _ (ih h.2)

theorem mapEntries_congr {α : Type} {F G : Nat → α → α} {d : List (Nat × α)}
    (h : ∀ p ∈ d, F p.1 p.2 = G p.1 p.2) : mapEntries F d = mapEntries G d := by
  unfold mapEntries
  exact List.map_congr_left (fun p hp => by rw [h p hp])

theorem dictLookup_mapEntries {α : Type} (F : Nat → α → α)
    (d : List (Nat × α)) (k : Nat) :
    dictLookup (mapEntries F d) k = (dictLookup d k).map (F k) := by
  induction d with
  | nil => rfl
  | cons p rest ih =>
      by_cases hk : p.1 = k
      · subst hk
        simp [dictLookup, mapEntries]
      · simpa [dictLookup, mapEntries, hk] using ih

theorem mapEntries_keys {α : Type} (F : Nat → α → α) (d : List (Nat × α)) :
    (mapEntries F d).map Prod.fst = d.map Prod.fst := by
  induction d with
  | nil => rfl
  | cons p rest ih => simpa [mapEntries] using ih

theorem dictSet_mapEntries {α : Type} {F G : Nat → α → α} :
    ∀ {d : List (Nat × α)} {a : Nat} {w : α},
    (d.map Prod.fst).Nodup →
    a ∈ d.map Prod.fst →
    (∀ x, dictLookup d a = some x → G a x = w) →
    (∀ k x, k ≠ a → G k x = F k x) →
    dictSet (mapEntries F d) a w = mapEntries G d := by
  intro d
  induction d with
  | nil => intro a w _ hmem _ _; simp at hmem
  | cons p rest ih =>
      intro a w hnd hmem h hG
      obtain ⟨pk, pv⟩ := p
      simp only [List.map_cons, List.nodup_cons] at hnd
      by_cases hk : pk = a
      · subst hk
        have hGa : G pk pv = w := h pv (by simp [dictLookup])
        have hFG : ∀ q ∈ rest, F q.1 q.2 = G q.1 q.2 := by
          intro q hq
          symm
          apply hG
          intro hqa
          apply hnd.1
          rw [← hqa]
          exact List.mem_map.mpr ⟨q, hq, rfl⟩
        have hrest : mapEntries F rest = mapEntries G rest :=
          mapEntries_congr hFG
        have e1 : mapEntries F ((pk, pv) :: rest)
            = (pk, F pk pv) :: mapEntries F rest := rfl
        have e2 : mapEntries G ((pk, pv) :: rest)
            = (pk, G pk pv) :: mapEntries G rest := rfl
        rw [e1, e2, hrest, hGa]
        simp [dictSet]
      · have hmem' : a ∈ rest.map Prod.fst := by
          rcases List.mem_cons.mp hmem with h1 | h2
          · exact absurd h1.symm hk
          · exact h2
        have h' : ∀ x, dictLookup rest a = some x → G a x = w := by
          intro x hx
          apply h
          simpa [dictLookup, hk] using hx
        have e1 : mapEntries F ((pk, pv) :: rest)
            = (pk, F pk pv) :: mapEntries F rest := rfl
        have e2 : mapEntries G ((pk, pv) :: rest)
            = (pk, G pk pv) :: mapEntries G rest := rfl
        rw [e1, e2]
        simp only [dictSet, hk, if_false, ite_false]
        rw [hG pk pv hk, ih hnd.2 hmem' h' hG]

/-! ## Generic fold lemmas for the merging loop -/

theorem foldl_measure_le {α β : Type} {f : α → β → α} {meas : α → Nat}
    (hstep : ∀ s b, meas (f s b) ≤ meas s) :
    ∀ (l : List β) (s : α), meas (l.foldl f s) ≤ meas s := by
  intro l
  induction l with
  | nil => intro s; exact le_refl _
  | cons b t ih =>
      intro s
      exact le_trans (ih (f s b)) (hstep s b)

theorem foldl_fix_of_measure_eq {α β : Type} {f : α → β → α} {meas : α → Nat}
    (hstep : ∀ s b, f s b = s ∨ meas (f s b) < meas s)
    (hle : ∀ s b, meas (f s b) ≤ meas s) :
    ∀ (l : List β) (s : α), meas (l.foldl f s) = meas s →
      l.foldl f s = s ∧ ∀ b ∈ l, f s b = s := by
  intro l
  induction l with
  | nil => intro s _; exact ⟨rfl, by simp⟩
  | cons b t ih =>
      intro s hmeq
      have hfix : f s b = s := by
        rcases hstep s b with h | h
        · exact h
        · exfalso
          have h2 : meas (t.foldl f (f s b)) ≤ meas (f s b) :=
            foldl_measure_le hle t (f s b)
          simp only [List.foldl_cons] at hmeq
          omega
      have hrec := ih s (by simpa [List.foldl_cons, hfix] using hmeq)
      refine ⟨by simpa [List.foldl_cons, hfix] using hrec.1, ?_⟩
      intro c hc
      rcases List.mem_cons.mp hc with h1 | h2
      · exact h1 ▸ hfix
      · exact hrec.2 c h2

/-! ## Properties of the merging loop -/

theorem countActive_cons (g : Finset Nat × Bool) (l : List (Finset Nat × Bool)) :
    countActive (g :: l) = (if g.2 then 1 else 0) + countActive l := by
  by_cases h : g.2 = true <;> simp [countActive, List.filter_cons, h] <;> omega

theorem countActive_set :
    ∀ (gs : List (Finset Nat × Bool)) (k : Nat) (a b : Finset Nat × Bool),
    gs[k]? = some a →
    countActive (gs.set k b) + (if a.2 then 1 else 0)
      = countActive gs + (if b.2 then 1 else 0) := by
  intro gs
  induction gs with
  | nil => intro k a b h; simp at h
  | cons g rest ih =>
      intro k a b h
      cases k with
      | zero =>
          rw [List.getElem?_cons_zero] at h
          injection h with h
          subst h
          simp only [List.set, countActive_cons]
          omega
      | succ k' =>
          rw [List.getElem?_cons_succ] at h
          simp only [List.set, countActive_cons]
          have := ih k' a b h
          omega

theorem innerStep_eq_or_lt (gs : List (Finset Nat × Bool)) (i j : Nat) :
    innerStep gs i j = gs ∨
      countActive (innerStep gs i j) < countActive gs := by
  by_cases hij : i = j
  · left; simp [innerStep, hij]
  cases hgi : gs[i]? with
  | none => left; simp [innerStep, hij, hgi]
  | some gi =>
  cases hgj : gs[j]? with
  | none => left; simp [innerStep, hij, hgi, hgj]
  | some gj =>
  by_cases hc : gi.2 = true ∧ gj.2 = true ∧ (gi.1 ∩ gj.1).Nonempty
  · right
    have hres : innerStep gs i j
        = (gs.set i (gi.1 ∪ gj.1, true)).set j (gj.1, false) := by
      simp [innerStep, hij, hgi, hgj, hc]
    have h1 := countActive_set gs i gi (gi.1 ∪ gj.1, true) hgi
    have hgj' : (gs.set i (gi.1 ∪ gj.1, true))[j]? = some gj := by
      rw [List.getElem?_set_ne hij]
      exact hgj
    have h2 := countActive_set _ j gj (gj.1, false) hgj'
    rw [hres]
    simp [hc.1, hc.2.1] at h1 h2
    omega
  · left; simp [innerStep, hij, hgi, hgj, hc]

theorem innerStep_count_le (gs : List (Finset Nat × Bool)) (i j : Nat) :
    countActive (innerStep gs i j) ≤ countActive gs := by
  rcases innerStep_eq_or_lt gs i j with h | h
  · rw [h]
  · exact le_of_lt h

theorem mergePass_count_le (gs : List (Finset Nat × Bool)) :
    countActive (mergePass gs) ≤ countActive gs := by
  unfold mergePass
  refine foldl_measure_le ?_ _ gs
  intro s i
  exact foldl_measure_le (fun t j => innerStep_count_le t i j) _ s

theorem innerLoop_eq_or_lt (n : Nat) (s : List (Finset Nat × Bool)) (i : Nat) :
    (List.range n).foldl (fun t j => innerStep t i j) s = s ∨
      countActive ((List.range n).foldl (fun t j => innerStep t i j) s)
        < countActive s := by
  by_cases h :
      countActive ((List.range n).foldl (fun t j => innerStep t i j) s)
        = countActive s
  · left
    exact (foldl_fix_of_measure_eq (fun t j => innerStep_eq_or_lt t i j)
      (fun t j => innerStep_count_le t i j) _ s h).1
  · right
    exact lt_of_le_of_ne
      (foldl_measure_le (fun t j => innerStep_count_le t i j) _ s) h

theorem mergePass_fix_innerStep (gs : List (Finset Nat × Bool))
    (h : mergePass gs = gs) :
    ∀ i j, i < gs.length → j < gs.length → innerStep gs i j = gs := by
  have hc : countActive (mergePass gs) = countActive gs := by rw [h]
  have h1 := foldl_fix_of_measure_eq
    (fun s i => innerLoop_eq_or_lt gs.length s i)
    (fun s i => foldl_measure_le (fun t j => innerStep_count_le t i j) _ s)
    (List.range gs.length) gs hc
  intro i j hi hj
  have h2 := h1.2 i (List.mem_range.mpr hi)
  have hc2 : countActive
      ((List.range gs.length).foldl (fun t j => innerStep t i j) gs)
        = countActive gs := by rw [h2]
  have h3 := foldl_fix_of_measure_eq (fun t j => innerStep_eq_or_lt t i j)
    (fun t j => innerStep_count_le t i j) (List.range gs.length) gs hc2
  exact h3.2 j (List.mem_range.mpr hj)

theorem mergePass_eq_self_of_count_eq (gs : List (Finset Nat × Bool))
    (h : countActive (mergePass gs) = countActive gs) : mergePass gs = gs := by
  unfold mergePass at h ⊢
  exact (foldl_fix_of_measure_eq
    (fun s i => innerLoop_eq_or_lt gs.length s i)
    (fun s i => foldl_measure_le (fun t j => innerStep_count_le t i j) _ s)
    (List.range gs.length) gs h).1

theorem mergeLoopFuel_fix :
    ∀ (fuel : Nat) (gs : List (Finset Nat × Bool)), countActive gs < fuel →
      mergePass (mergeLoopFuel fuel gs) = mergeLoopFuel fuel gs := by
  intro fuel
  induction fuel with
  | zero => intro gs h; omega
  | succ f ih =>
      intro gs h
      by_cases he : countActive (mergePass gs) = countActive gs
      · have hfix := mergePass_eq_self_of_count_eq gs he
        simp only [mergeLoopFuel, he, if_true]
        rw [hfix]
        exact hfix
      · simp only [mergeLoopFuel, he, if_false, ite_false]
        apply ih
        have hle := mergePass_count_le gs
        omega

theorem mergeLoop_fix (gs : List (Finset Nat × Bool)) :
    mergePass (mergeLoop gs) = mergeLoop gs :=
  mergeLoopFuel_fix _ gs (Nat.lt_succ_self _)

theorem mergeLoop_disjoint (gs0 : List (Finset Nat × Bool)) :
    ∀ (i j : Nat) (gi gj : Finset Nat × Bool) (a : Nat), i ≠ j →
      (mergeLoop gs0)[i]? = some gi → (mergeLoop gs0)[j]? = some gj →
      gi.2 = true → gj.2 = true → a ∈ gi.1 → a ∉ gj.1 := by
  intro i j gi gj a hij hgi hgj hai haj hmi hmj
  have hfixall := mergePass_fix_innerStep (mergeLoop gs0) (mergeLoop_fix gs0)
  have hi : i < (mergeLoop gs0).length := by
    rcases List.getElem?_eq_some_iff.mp hgi with ⟨h, _⟩
    exact h
  have hj : j < (mergeLoop gs0).length := by
    rcases List.getElem?_eq_some_iff.mp hgj with ⟨h, _⟩
    exact h
  have hfix := hfixall i j hi hj
  have hne : (gi.1 ∩ gj.1).Nonempty := ⟨a, Finset.mem_inter.mpr ⟨hmi, hmj⟩⟩
  have hfire : innerStep (mergeLoop gs0) i j
      = ((mergeLoop gs0).set i (gi.1 ∪ gj.1, true)).set j (gj.1, false) := by
    simp [innerStep, hij, hgi, hgj, hai, haj, hne]
  rw [hfix] at hfire
  have e1 : (((mergeLoop gs0).set i (gi.1 ∪ gj.1, true)).set j
      (gj.1, false))[j]? = some (gj.1, false) :=
    List.getElem?_set_self (by simpa using hj)
  rw [← hfire] at e1
  rw [hgj] at e1
  injection e1 with e1
  rw [e1] at haj
  simp at haj

theorem coversTo_refl (gs : List (Finset Nat × Bool)) : coversTo gs gs :=
  fun k p h hp => ⟨k, p, h, hp, Finset.Subset.refl _⟩

theorem coversTo_trans {a b c : List (Finset Nat × Bool)}
    (h1 : coversTo a b) (h2 : coversTo b c) : coversTo a c := by
  intro k p hk hp
  rcases h1 k p hk hp with ⟨k', p', hk', hp', hsub⟩
  rcases h2 k' p' hk' hp' with ⟨k'', p'', hk'', hp'', hsub'⟩
  exact ⟨k'', p'', hk'', hp'', Finset.Subset.trans hsub hsub'⟩

theorem innerStep_covers (gs : List (Finset Nat × Bool)) (i j : Nat) :
    coversTo gs (innerStep gs i j) := by
  by_cases hij : i = j
  · rw [show innerStep gs i j = gs by simp [innerStep, hij]]
    exact coversTo_refl gs
  cases hgi : gs[i]? with
  | none =>
      rw [show innerStep gs i j = gs by simp [innerStep, hij, hgi]]
      exact coversTo_refl gs
  | some gi =>
  cases hgj : gs[j]? with
  | none =>
      rw [show innerStep gs i j = gs by simp [innerStep, hij, hgi, hgj]]
      exact coversTo_refl gs
  | some gj =>
  by_cases hc : gi.2 = true ∧ gj.2 = true ∧ (gi.1 ∩ gj.1).Nonempty
  · have hres : innerStep gs i j
        = (gs.set i (gi.1 ∪ gj.1, true)).set j (gj.1, false) := by
      simp [innerStep, hij, hgi, hgj, hc]
    rw [hres]
    intro k p hk hp
    have hi : i < gs.length := by
      rcases List.getElem?_eq_some_iff.mp hgi with ⟨h, _⟩
      exact h
    have hgeti : ((gs.set i (gi.1 ∪ gj.1, true)).set j (gj.1, false))[i]?
        = some (gi.1 ∪ gj.1, true) := by
      rw [List.getElem?_set_ne (fun h => hij h.symm)]
      exact List.getElem?_set_self (by simpa using hi)
    by_cases hkj : k = j
    · have hp' : p = gj := by
        rw [hkj, hgj] at hk
        injection hk with h
        exact h.symm
      refine ⟨i, (gi.1 ∪ gj.1, true), hgeti, rfl, ?_⟩
      rw [hp']
      exact Finset.subset_union_right
    by_cases hki : k = i
    · have hp' : p = gi := by
        rw [hki, hgi] at hk
        injection hk with h
        exact h.symm
      refine ⟨i, (gi.1 ∪ gj.1, true), hgeti, rfl, ?_⟩
      rw [hp']
      exact Finset.subset_union_left
    · refine ⟨k, p, ?_, hp, Finset.Subset.refl _⟩
      rw [List.getElem?_set_ne (fun h => hkj h.symm),
        List.getElem?_set_ne (fun h => hki h.symm)]
      exact hk
  · rw [show innerStep gs i j = gs by simp [innerStep, hij, hgi, hgj, hc]]
    exact coversTo_refl gs

theorem foldl_covers {β : Type}
    {f : List (Finset Nat × Bool) → β → List (Finset Nat × Bool)}
    (hstep : ∀ s b, coversTo s (f s b)) :
    ∀ (l : List β) (s : List (Finset Nat × Bool)), coversTo s (l.foldl f s) := by
  intro l
  induction l with
  | nil => intro s; exact coversTo_refl s
  | cons b t ih =>
      intro s
      exact coversTo_trans (hstep s b) (ih (f s b))

theorem mergePass_covers (gs : List (Finset Nat × Bool)) :
    coversTo gs (mergePass gs) := by
  unfold mergePass
  exact foldl_covers
    (fun s i => foldl_covers (fun t j => innerStep_covers t i j) _ s) _ gs

theorem mergeLoopFuel_covers :
    ∀ (fuel : Nat) (gs : List (Finset Nat × Bool)),
      coversTo gs (mergeLoopFuel fuel gs) := by
  intro fuel
  induction fuel with
  | zero => intro gs; exact coversTo_refl gs
  | succ f ih =>
      intro gs
      by_cases he : countActive (mergePass gs) = countActive gs
      · simp only [mergeLoopFuel, he, if_true]
        exact mergePass_covers gs
      · simp only [mergeLoopFuel, he, if_false, ite_false]
        exact coversTo_trans (mergePass_covers gs) (ih (mergePass gs))

theorem mergeLoop_covers (gs : List (Finset Nat × Bool)) :
    coversTo gs (mergeLoop gs) :=
  mergeLoopFuel_covers _ gs

/-! ## The assignment loop -/

theorem assignedMain_cons (g : Finset Nat × Bool)
    (gs : List (Finset Nat × Bool)) (base k : Nat) (m0 : Option Nat) :
    assignedMain (g :: gs) base k m0 =
      if g.2 = true then
        assignedMain gs (base + 1) k (if k ∈ g.1 then some base else m0)
      else assignedMain gs base k m0 := by
  by_cases hg : g.2 = true <;> by_cases hk : k ∈ g.1 <;>
    simp [assignedMain, hg, hk]

theorem assignedMain_isSome_of_some (gs : List (Finset Nat × Bool)) :
    ∀ (base k v : Nat), (assignedMain gs base k (some v)).isSome := by
  induction gs with
  | nil => intro base k v; simp [assignedMain]
  | cons g rest ih =>
      intro base k v
      rw [assignedMain_cons]
      by_cases hg : g.2 = true
      · rw [if_pos hg]
        by_cases hk : k ∈ g.1
        · rw [if_pos hk]; exact ih _ _ _
        · rw [if_neg hk]; exact ih _ _ _
      · rw [if_neg hg]; exact ih _ _ _

theorem assignedMain_eq_of_not_mem (gs : List (Finset Nat × Bool)) :
    ∀ (base k : Nat) (m0 : Option Nat),
    (∀ g ∈ gs, g.2 = true → k ∉ g.1) → assignedMain gs base k m0 = m0 := by
  induction gs with
  | nil => intro base k m0 _; simp [assignedMain]
  | cons g rest ih =>
      intro base k m0 h
      rw [assignedMain_cons]
      by_cases hg : g.2 = true
      · rw [if_pos hg, if_neg (h g (List.mem_cons_self _ _) hg)]
        exact ih _ _ _ (fun g' hg' => h g' (List.mem_cons_of_mem _ hg'))
      · rw [if_neg hg]
        exact ih _ _ _ (fun g' hg' => h g' (List.mem_cons_of_mem _ hg'))

theorem assignedMain_isSome_of_mem (gs : List (Finset Nat × Bool)) :
    ∀ (base k : Nat) (m0 : Option Nat),
    (∃ g ∈ gs, g.2 = true ∧ k ∈ g.1) → (assignedMain gs base k m0).isSome := by
  induction gs with
  | nil => intro base k m0 h; simp at h
  | cons g rest ih =>
      intro base k m0 h
      rw [assignedMain_cons]
      by_cases hg : g.2 = true
      · rw [if_pos hg]
        by_cases hk : k ∈ g.1
        · rw [if_pos hk]
          exact assignedMain_isSome_of_some _ _ _ _
        · rw [if_neg hk]
          rcases h with ⟨g', hg', hact, hmem⟩
          rcases List.mem_cons.mp hg' with h1 | h2
          · exact absurd (h1 ▸ hmem) hk
          · exact ih _ _ _ ⟨g', h2, hact, hmem⟩
      · rw [if_neg hg]
        rcases h with ⟨g', hg', hact, hmem⟩
        rcases List.mem_cons.mp hg' with h1 | h2
        · exact absurd (h1 ▸ hact) hg
        · exact ih _ _ _ ⟨g', h2, hact, hmem⟩

theorem assignedMain_unique (gs : List (Finset Nat × Bool)) :
    ∀ (i : Nat) (gi : Finset Nat × Bool) (base k : Nat) (m0 : Option Nat),
    gs[i]? = some gi → gi.2 = true → k ∈ gi.1 →
    (∀ (j : Nat) (gj : Finset Nat × Bool),
      gs[j]? = some gj → gj.2 = true → j ≠ i → k ∉ gj.1) →
    assignedMain gs base k m0 = some (base + countActive (gs.take i)) := by
  induction gs with
  | nil => intro i gi base k m0 h; simp at h
  | cons g rest ih =>
      intro i gi base k m0 hgi hact hmem huniq
      cases i with
      | zero =>
          rw [List.getElem?_cons_zero] at hgi
          injection hgi with hgi
          rw [assignedMain_cons, if_pos (hgi ▸ hact), if_pos (hgi ▸ hmem)]
          have hnone : ∀ g' ∈ rest, g'.2 = true → k ∉ g'.1 := by
            intro g' hg' hact'
            rcases List.getElem?_of_mem hg' with ⟨n, hn⟩
            exact huniq (n + 1) g' (by simpa using hn) hact' (by omega)
          rw [assignedMain_eq_of_not_mem rest (base + 1) k (some base) hnone]
          simp [countActive]
      | succ i' =>
          rw [List.getElem?_cons_succ] at hgi
          have huniq' : ∀ (j : Nat) (gj : Finset Nat × Bool),
              rest[j]? = some gj → gj.2 = true → j ≠ i' → k ∉ gj.1 := by
            intro j gj hj ha hne
            exact huniq (j + 1) gj (by simpa using hj) ha (by omega)
          rw [assignedMain_cons]
          by_cases hg : g.2 = true
          · have hk0 : k ∉ g.1 :=
              huniq 0 g List.getElem?_cons_zero hg (by omega)
            rw [if_pos hg, if_neg hk0,
              ih i' gi (base + 1) k m0 hgi hact hmem huniq']
            congr 1
            rw [List.take_succ_cons, countActive_cons, if_pos hg]
            omega
          · rw [if_neg hg, ih i' gi base k m0 hgi hact hmem huniq']
            congr 1
            rw [List.take_succ_cons, countActive_cons, if_neg hg]
            omega

theorem assignMainNodeIds_char (gs : List (Finset Nat × Bool)) :
    ∀ (nodes : List (Nat × Node)) (base : Nat),
    assignMainNodeIds gs nodes base
      = (mapEntries (fun k nd =>
          { nd with main_node_id := assignedMain gs base k nd.main_node_id })
          nodes,
        base + countActive gs) := by
  induction gs with
  | nil =>
      intro nodes base
      have h1 : (fun (k : Nat) (nd : Node) =>
          { nd with main_node_id := assignedMain [] base k nd.main_node_id })
          = fun _ nd => nd := by
        funext k nd
        rfl
      have h2 : mapEntries (fun (_ : Nat) (nd : Node) => nd) nodes = nodes := by
        unfold mapEntries
        have h3 : (fun p : Nat × Node => (p.1, p.2)) = id := funext fun p => rfl
        rw [h3, List.map_id]
      show (nodes, base) = _
      rw [h1, h2]
      simp [countActive]
  | cons g rest ih =>
      intro nodes base
      by_cases hg : g.2 = true
      · have hstep : assignMainNodeIds (g :: rest) nodes base
            = assignMainNodeIds rest
                (nodes.map (fun p =>
                  if p.1 ∈ g.1 then
                    (p.1, { p.2 with main_node_id := some base })
                  else p))
                (base + 1) := by
          simp [assignMainNodeIds, hg]
        rw [hstep, ih]
        have h1 : mapEntries (fun k nd =>
              { nd with main_node_id :=
                  assignedMain rest (base + 1) k nd.main_node_id })
            (nodes.map (fun p =>
              if p.1 ∈ g.1 then
                (p.1, { p.2 with main_node_id := some base })
              else p))
            = mapEntries (fun k nd =>
                { nd with main_node_id :=
                    assignedMain (g :: rest) base k nd.main_node_id })
              nodes := by
          unfold mapEntries
          rw [List.map_map]
          apply List.map_congr_left
          intro p _
          by_cases hk : p.1 ∈ g.1
          · simp [Function.comp, hk, assignedMain_cons, hg]
          · simp [Function.comp, hk, assignedMain_cons, hg]
        have h2 : base + 1 + countActive rest
            = base + countActive (g :: rest) := by
          rw [countActive_cons, if_pos hg]
          omega
        rw [h1, h2]
      · have hstep : assignMainNodeIds (g :: rest) nodes base
            = assignMainNodeIds rest nodes base := by
          simp [assignMainNodeIds, hg]
        rw [hstep, ih]
        have h1 : mapEntries (fun k nd =>
              { nd with main_node_id :=
                  assignedMain rest base k nd.main_node_id }) nodes
            = mapEntries (fun k nd =>
                { nd with main_node_id :=
                    assignedMain (g :: rest) base k nd.main_node_id })
              nodes := by
          apply mapEntries_congr
          intro p _
          rw [assignedMain_cons, if_neg hg]
        have h2 : base + countActive rest = base + countActive (g :: rest) := by
          rw [countActive_cons, if_neg hg]
          omega
        rw [h1, h2]

theorem identify_node_dict (net : Network) (buf : ℚ) :
    (identifyComplexIntersections net buf).node_dict
      = mapEntries (fun k nd =>
          { nd with
              main_node_id := assignedMain (detectGroups net buf)
                net.max_main_node_id k nd.main_node_id })
          net.node_dict := by
  show (assignMainNodeIds (detectGroups net buf) net.node_dict
      net.max_main_node_id).1 = _
  rw [assignMainNodeIds_char]

theorem identify_link_dict (net : Network) (buf : ℚ) :
    (identifyComplexIntersections net buf).link_dict = net.link_dict := rfl

theorem identify_max_node_id (net : Network) (buf : ℚ) :
    (identifyComplexIntersections net buf).max_node_id = net.max_node_id :=
  rfl

theorem identify_max_main_node_id (net : Network) (buf : ℚ) :
    (identifyComplexIntersections net buf).max_main_node_id
      = net.max_main_node_id + countActive (detectGroups net buf) := by
  show (assignMainNodeIds (detectGroups net buf) net.node_dict
      net.max_main_node_id).2 = _
  rw [assignMainNodeIds_char]

/-! ## Claims about detection -/

/-- C5: during detection, a link contributes the initial candidate group
consisting of its two endpoints if and only if its length is at most the
threshold, both endpoints carry no `main_node_id`, and both endpoints are
signal controlled; a link failing any condition contributes nothing; a
self-loop satisfying them contributes a one-element group. -/
theorem claim_C5_candidate_groups (network : Network) (int_buffer : ℚ)
    (link : Link) (ndF ndT : Node)
    (hF : dictLookup network.node_dict link.from_node = some ndF)
    (hT : dictLookup network.node_dict link.to_node = some ndT) :
    (groupOfLink network int_buffer link
        = some ({link.from_node, link.to_node}, true)
      ↔ (link.length ≤ int_buffer ∧ ndF.main_node_id = none ∧
          ndT.main_node_id = none ∧ ndF.ctrl_type = some "signal" ∧
          ndT.ctrl_type = some "signal"))
    ∧ (¬ (link.length ≤ int_buffer ∧ ndF.main_node_id = none ∧
          ndT.main_node_id = none ∧ ndF.ctrl_type = some "signal" ∧
          ndT.ctrl_type = some "signal")
        → groupOfLink network int_buffer link = none)
    ∧ (link.from_node = link.to_node →
        link.length ≤ int_buffer → ndF.main_node_id = none →
        ndT.main_node_id = none → ndF.ctrl_type = some "signal" →
        ndT.ctrl_type = some "signal" →
        groupOfLink network int_buffer link
          = some ({link.from_node}, true)) := by
  refine ⟨⟨?_, ?_⟩, ?_, ?_⟩
  · intro h
    by_cases hlen : link.length > int_buffer
    · simp [groupOfLink, hF, hT, hlen] at h
    by_cases hm : ndF.main_node_id = none ∧ ndT.main_node_id = none
    · by_cases hc : ndF.ctrl_type = some "signal" ∧
          ndT.ctrl_type = some "signal"
      · exact ⟨not_lt.mp hlen, hm.1, hm.2, hc.1, hc.2⟩
      · simp [groupOfLink, hF, hT, hlen, hm, hc] at h
    · simp [groupOfLink, hF, hT, hlen, hm] at h
  · intro h
    have hlen : ¬ link.length > int_buffer := not_lt.mpr h.1
    simp [groupOfLink, hF, hT, hlen, h.2.1, h.2.2.1, h.2.2.2.1, h.2.2.2.2]
  · intro h
    by_cases hlen : link.length > int_buffer
    · simp [groupOfLink, hF, hT, hlen]
    have hle := not_lt.mp hlen
    by_cases hm : ndF.main_node_id = none ∧ ndT.main_node_id = none
    · by_cases hc : ndF.ctrl_type = some "signal" ∧
          ndT.ctrl_type = some "signal"
      · exact absurd ⟨hle, hm.1, hm.2, hc.1, hc.2⟩ h
      · simp [groupOfLink, hF, hT, hlen, hm, hc]
    · simp [groupOfLink, hF, hT, hlen, hm]
  · intro hft hle h1 h2 h3 h4
    have hlen : ¬ link.length > int_buffer := not_lt.mpr hle
    have e : groupOfLink network int_buffer link
        = some ({link.from_node, link.to_node}, true) := by
      simp [groupOfLink, hF, hT, hlen, h1, h2, h3, h4]
    rw [e, hft]
    simp

/-- Witness for C5 at the first link of the example chain network. -/
theorem claim_C5_witness :
    groupOfLink exNet 10 (mkLink 10 1 2 5) = some ({1, 2}, true) := by
  have h := claim_C5_candidate_groups exNet 10 (mkLink 10 1 2 5)
    { mkNode 1 none true 0 0 with outgoing_link_list := [10] }
    { mkNode 2 none true 1 0 with
        incoming_link_list := [10], outgoing_link_list := [11] }
    (by decide) (by decide)
  exact h.1.mpr (by decide)

/-- C3: the groups surviving detection are pairwise disjoint — no node
appears in two surviving groups, so no node is assigned two different
`main_node_id` values. -/
theorem claim_C3_groups_disjoint (network : Network) (int_buffer : ℚ) :
    ∀ (i j : Nat) (gi gj : Finset Nat × Bool) (a : Nat), i ≠ j →
      (detectGroups network int_buffer)[i]? = some gi →
      (detectGroups network int_buffer)[j]? = some gj →
      gi.2 = true → gj.2 = true → a ∈ gi.1 → a ∉ gj.1 :=
  fun i j gi gj a hij hgi hgj =>
    mergeLoop_disjoint (initialGroups network int_buffer) i j gi gj a hij
      hgi hgj

/-- Witness for C3 on a network whose detection yields two surviving
groups. -/
theorem claim_C3_witness : (1 : Nat) ∉ ({3, 4} : Finset Nat) :=
  claim_C3_groups_disjoint exNetPair 10 0 1 ({1, 2}, true) ({3, 4}, true) 1
    (by decide) (by decide) (by decide) rfl rfl (by decide)

/-- C2: if signal-controlled, initially ungrouped nodes A, B, C are
connected by links A-B and B-C of length at most the threshold, then after
detection A, B and C carry the same `main_node_id`, even with no direct
link A-C: the merge loop reaches the transitive closure of overlap. -/
theorem claim_C2_transitive_grouping (network : Network) (int_buffer : ℚ)
    (A B C : Nat) (ndA ndB ndC : Node) (l1id l2id : Nat) (l1 l2 : Link)
    (hA : dictLookup network.node_dict A = some ndA)
    (hB : dictLookup network.node_dict B = some ndB)
    (hC : dictLookup network.node_dict C = some ndC)
    (hAm : ndA.main_node_id = none) (hBm : ndB.main_node_id = none)
    (hCm : ndC.main_node_id = none)
    (hAs : ndA.ctrl_type = some "signal")
    (hBs : ndB.ctrl_type = some "signal")
    (hCs : ndC.ctrl_type = some "signal")
    (hl1 : (l1id, l1) ∈ network.link_dict)
    (hl1f : l1.from_node = A) (hl1t : l1.to_node = B)
    (hl1len : l1.length ≤ int_buffer)
    (hl2 : (l2id, l2) ∈ network.link_dict)
    (hl2f : l2.from_node = B) (hl2t : l2.to_node = C)
    (hl2len : l2.length ≤ int_buffer) :
    ∃ v : Nat,
      (dictLookup (identifyComplexIntersections network int_buffer).node_dict
        A).map Node.main_node_id = some (some v) ∧
      (dictLookup (identifyComplexIntersections network int_buffer).node_dict
        B).map Node.main_node_id = some (some v) ∧
      (dictLookup (identifyComplexIntersections network int_buffer).node_dict
        C).map Node.main_node_id = some (some v) := by
  have cand1 : groupOfLink network int_buffer l1 = some ({A, B}, true) := by
    simp [groupOfLink, hl1f, hl1t, hA, hB, not_lt.mpr hl1len, hAm, hBm,
      hAs, hBs]
  have cand2 : groupOfLink network int_buffer l2 = some ({B, C}, true) := by
    simp [groupOfLink, hl2f, hl2t, hB, hC, not_lt.mpr hl2len, hBm, hCm,
      hBs, hCs]
  have mem1 : ({A, B}, true) ∈ initialGroups network int_buffer :=
    List.mem_filterMap.mpr ⟨(l1id, l1), hl1, cand1⟩
  have mem2 : ({B, C}, true) ∈ initialGroups network int_buffer :=
    List.mem_filterMap.mpr ⟨(l2id, l2), hl2, cand2⟩
  rcases List.getElem?_of_mem mem1 with ⟨n1, hn1⟩
  rcases List.getElem?_of_mem mem2 with ⟨n2, hn2⟩
  rcases mergeLoop_covers (initialGroups network int_buffer) n1 _ hn1 rfl
    with ⟨i1, p1, hg1, ha1, hs1⟩
  rcases mergeLoop_covers (initialGroups network int_buffer) n2 _ hn2 rfl
    with ⟨i2, p2, hg2, ha2, hs2⟩
  have hBp1 : B ∈ p1.1 := hs1 (by simp)
  have hBp2 : B ∈ p2.1 := hs2 (by simp)
  have hI : i1 = i2 := by
    by_contra hne
    exact (mergeLoop_disjoint (initialGroups network int_buffer) i1 i2 p1 p2
      B hne hg1 hg2 ha1 ha2 hBp1) hBp2
  subst hI
  have hp : p1 = p2 := by
    rw [hg1] at hg2
    exact Option.some.inj hg2
  subst hp
  have hAp : A ∈ p1.1 := hs1 (by simp)
  have hCp : C ∈ p1.1 := hs2 (by simp)
  have huniq : ∀ x : Nat, x ∈ p1.1 → ∀ (j : Nat) (gj : Finset Nat × Bool),
      (mergeLoop (initialGroups network int_buffer))[j]? = some gj →
      gj.2 = true → j ≠ i1 → x ∉ gj.1 := by
    intro x hx j gj hj ha hne
    exact mergeLoop_disjoint (initialGroups network int_buffer) i1 j p1 gj x
      (fun he => hne he.symm) hg1 hj ha1 ha hx
  refine ⟨network.max_main_node_id +
    countActive ((mergeLoop (initialGroups network int_buffer)).take i1),
    ?_, ?_, ?_⟩
  · rw [identify_node_dict, dictLookup_mapEntries, hA, Option.map_some',
      Option.map_some']
    exact congrArg some (assignedMain_unique
      (mergeLoop (initialGroups network int_buffer)) i1 p1
      network.max_main_node_id A ndA.main_node_id hg1 ha1 hAp (huniq A hAp))
  · rw [identify_node_dict, dictLookup_mapEntries, hB, Option.map_some',
      Option.map_some']
    exact congrArg some (assignedMain_unique
      (mergeLoop (initialGroups network int_buffer)) i1 p1
      network.max_main_node_id B ndB.main_node_id hg1 ha1 hBp1 (huniq B hBp1))
  · rw [identify_node_dict, dictLookup_mapEntries, hC, Option.map_some',
      Option.map_some']
    exact congrArg some (assignedMain_unique
      (mergeLoop (initialGroups network int_buffer)) i1 p1
      network.max_main_node_id C ndC.main_node_id hg1 ha1 hCp (huniq C hCp))

/-- Witness for C2 on the example chain: nodes 1, 2, 3 end up sharing one
group id. -/
theorem claim_C2_witness :
    ∃ v : Nat,
      (dictLookup (identifyComplexIntersections exNet 10).node_dict
        1).map Node.main_node_id = some (some v) ∧
      (dictLookup (identifyComplexIntersections exNet 10).node_dict
        2).map Node.main_node_id = some (some v) ∧
      (dictLookup (identifyComplexIntersections exNet 10).node_dict
        3).map Node.main_node_id = some (some v) :=
  claim_C2_transitive_grouping exNet 10 1 2 3
    { mkNode 1 none true 0 0 with outgoing_link_list := [10] }
    { mkNode 2 none true 1 0 with
        incoming_link_list := [10], outgoing_link_list := [11] }
    { mkNode 3 none true 2 0 with
        incoming_link_list := [11], outgoing_link_list := [12] }
    10 11 (mkLink 10 1 2 5) (mkLink 11 2 3 5)
    (by decide) (by decide) (by decide) rfl rfl rfl rfl rfl rfl
    (by decide) rfl rfl (by decide) (by decide) rfl rfl (by decide)

theorem initialGroups_identify_nil (net : Network) (buf : ℚ) :
    initialGroups (identifyComplexIntersections net buf) buf = [] := by
  apply List.filterMap_eq_nil_iff.mpr
  intro pr hpr
  have hpr' : pr ∈ net.link_dict := by
    rw [identify_link_dict] at hpr
    exact hpr
  cases hF : dictLookup net.node_dict pr.2.from_node with
  | none =>
      have hF' : dictLookup (identifyComplexIntersections net buf).node_dict
          pr.2.from_node = none := by
        rw [identify_node_dict, dictLookup_mapEntries, hF]
        rfl
      simp [groupOfLink, hF']
  | some fn =>
  have hF' : dictLookup (identifyComplexIntersections net buf).node_dict
      pr.2.from_node = some { fn with
        main_node_id := assignedMain (detectGroups net buf)
          net.max_main_node_id pr.2.from_node fn.main_node_id } := by
    rw [identify_node_dict, dictLookup_mapEntries, hF]
    rfl
  cases hT : dictLookup net.node_dict pr.2.to_node with
  | none =>
      have hT' : dictLookup (identifyComplexIntersections net buf).node_dict
          pr.2.to_node = none := by
        rw [identify_node_dict, dictLookup_mapEntries, hT]
        rfl
      simp [groupOfLink, hF', hT']
  | some tn =>
  have hT' : dictLookup (identifyComplexIntersections net buf).node_dict
      pr.2.to_node = some { tn with
        main_node_id := assignedMain (detectGroups net buf)
          net.max_main_node_id pr.2.to_node tn.main_node_id } := by
    rw [identify_node_dict, dictLookup_mapEntries, hT]
    rfl
  by_cases hlen : pr.2.length > buf
  · simp [groupOfLink, hF', hT', hlen]
  by_cases hm : fn.main_node_id = none ∧ tn.main_node_id = none
  · by_cases hc : fn.ctrl_type = some "signal" ∧ tn.ctrl_type = some "signal"
    · have cand : groupOfLink net buf pr.2
          = some ({pr.2.from_node, pr.2.to_node}, true) := by
        simp [groupOfLink, hF, hT, hlen, hm.1, hm.2, hc.1, hc.2]
      have mem1 : ({pr.2.from_node, pr.2.to_node}, true)
          ∈ initialGroups net buf :=
        List.mem_filterMap.mpr ⟨pr, hpr', cand⟩
      rcases List.getElem?_of_mem mem1 with ⟨n, hn⟩
      rcases mergeLoop_covers (initialGroups net buf) n _ hn rfl
        with ⟨i1, p1, hget, hact, hsub⟩
      have hmemf : pr.2.from_node ∈ p1.1 := hsub (by simp)
      have hsome := assignedMain_isSome_of_mem (detectGroups net buf)
        net.max_main_node_id pr.2.from_node fn.main_node_id
        ⟨p1, List.getElem?_mem hget, hact, hmemf⟩
      have hne : assignedMain (detectGroups net buf) net.max_main_node_id
          pr.2.from_node fn.main_node_id ≠ none := by
        intro he
        rw [he] at hsome
        simp at hsome
      simp [groupOfLink, hF', hT', hlen, hne]
    · by_cases hm' : assignedMain (detectGroups net buf)
          net.max_main_node_id pr.2.from_node fn.main_node_id = none ∧
          assignedMain (detectGroups net buf) net.max_main_node_id
            pr.2.to_node tn.main_node_id = none
      · simp [groupOfLink, hF', hT', hlen, hm'.1, hm'.2, hc]
      · simp [groupOfLink, hF', hT', hlen, hm']
  · have hne : ¬ (assignedMain (detectGroups net buf) net.max_main_node_id
        pr.2.from_node fn.main_node_id = none ∧
        assignedMain (detectGroups net buf) net.max_main_node_id
          pr.2.to_node tn.main_node_id = none) := by
      rintro ⟨h1, h2⟩
      apply hm
      constructor
      · cases hfn : fn.main_node_id with
        | none => rfl
        | some v =>
            rw [hfn] at h1
            have := assignedMain_isSome_of_some (detectGroups net buf)
              net.max_main_node_id pr.2.from_node v
            rw [h1] at this
            simp at this
      · cases htn : tn.main_node_id with
        | none => rfl
        | some v =>
            rw [htn] at h2
            have := assignedMain_isSome_of_some (detectGroups net buf)
              net.max_main_node_id pr.2.to_node v
            rw [h2] at this
            simp at this
    simp [groupOfLink, hF', hT', hlen, hne]

/-- C8: detection is idempotent — after one detection pass, a second pass
with the same threshold finds no candidate links (their endpoints now carry
group ids), assigns nothing and leaves the `max_main_node_id` counter and
every node untouched. -/
theorem claim_C8_detection_idempotent (network : Network) (int_buffer : ℚ) :
    identifyComplexIntersections
      (identifyComplexIntersections network int_buffer) int_buffer
      = identifyComplexIntersections network int_buffer := by
  have h0 := initialGroups_identify_nil network int_buffer
  have hdg : detectGroups (identifyComplexIntersections network int_buffer)
      int_buffer = [] := by
    unfold detectGroups mergeLoop
    rw [h0]
    rfl
  show { identifyComplexIntersections network int_buffer with
      node_dict := (assignMainNodeIds
        (detectGroups (identifyComplexIntersections network int_buffer)
          int_buffer)
        (identifyComplexIntersections network int_buffer).node_dict
        (identifyComplexIntersections network int_buffer).max_main_node_id).1,
      max_main_node_id := (assignMainNodeIds
        (detectGroups (identifyComplexIntersections network int_buffer)
          int_buffer)
        (identifyComplexIntersections network int_buffer).node_dict
        (identifyComplexIntersections network int_buffer).max_main_node_id).2 }
    = identifyComplexIntersections network int_buffer
  rw [hdg]
  rfl

/-! ## Claims about consolidation -/

theorem processGroup_skip (p q : Nat) (st : ConsState) (g : Nat × List Node)
    (h : g.2.length < 2) : processGroup p q st g = st := by
  simp [processGroup, h]

theorem foldl_processGroup_small (p q : Nat) :
    ∀ (l : List (Nat × List Node)), (∀ g ∈ l, g.2.length < 2) →
      ∀ st : ConsState, l.foldl (processGroup p q) st = st := by
  intro l
  induction l with
  | nil => intro _ st; rfl
  | cons g t ih =>
      intro h st
      rw [List.foldl_cons, processGroup_skip p q st g (h g (by simp))]
      exact ih (fun g' hg' => h g' (List.mem_cons_of_mem _ hg')) st

theorem buildNodeGroups_no_main (nodes : List (Nat × Node))
    (h : ∀ pr ∈ nodes, pr.2.main_node_id = none) :
    buildNodeGroups nodes = [] := by
  unfold buildNodeGroups
  have : ∀ (l : List (Nat × Node)), (∀ pr ∈ l, pr.2.main_node_id = none) →
      ∀ acc : List (Nat × List Node),
      l.foldl (fun acc p =>
        match p.2.main_node_id with
        | some m => dictAppend acc m p.2
        | none => acc) acc = acc := by
    intro l
    induction l with
    | nil => intro _ acc; rfl
    | cons pr t ih =>
        intro h2 acc
        rw [List.foldl_cons]
        have hm := h2 pr (by simp)
        rw [show (match pr.2.main_node_id with
          | some m => dictAppend acc m pr.2
          | none => acc) = acc by rw [hm]]
        exact ih (fun pr' hpr' => h2 pr' (List.mem_cons_of_mem _ hpr')) acc
  exact this nodes h []

theorem consolidateGroups_apply (p q : Nat) (glist : List (Nat × List Node))
    (net : Network) :
    consolidateGroups p q glist net =
      { net with
          node_dict := (glist.foldl (processGroup p q)
              ⟨net.node_dict, net.link_dict, net.max_node_id, ∅,
                ∅⟩).node_dict.filter
            (fun pr => pr.1 ∉ (glist.foldl (processGroup p q)
              ⟨net.node_dict, net.link_dict, net.max_node_id, ∅,
                ∅⟩).removal_node_set),
          link_dict := (glist.foldl (processGroup p q)
              ⟨net.node_dict, net.link_dict, net.max_node_id, ∅,
                ∅⟩).link_dict.filter
            (fun pr => pr.1 ∉ (glist.foldl (processGroup p q)
              ⟨net.node_dict, net.link_dict, net.max_node_id, ∅,
                ∅⟩).removal_link_set),
          max_node_id := (glist.foldl (processGroup p q)
            ⟨net.node_dict, net.link_dict, net.max_node_id, ∅,
              ∅⟩).max_node_id } := rfl

theorem consolidateGroups_small (p q : Nat) (glist : List (Nat × List Node))
    (net : Network) (h : ∀ g ∈ glist, g.2.length < 2) :
    consolidateGroups p q glist net = net := by
  rw [consolidateGroups_apply, foldl_processGroup_small p q glist h]
  have hn : net.node_dict.filter
      (fun pr => pr.1 ∉ (∅ : Finset Nat)) = net.node_dict := by
    apply List.filter_eq_self.mpr
    intro a _
    simp
  have hl : net.link_dict.filter
      (fun pr => pr.1 ∉ (∅ : Finset Nat)) = net.link_dict := by
    apply List.filter_eq_self.mpr
    intro a _
    simp
  show { net with
      node_dict := net.node_dict.filter (fun pr => pr.1 ∉ (∅ : Finset Nat)),
      link_dict := net.link_dict.filter (fun pr => pr.1 ∉ (∅ : Finset Nat)),
      max_node_id := net.max_node_id } = net
  rw [hn, hl]

/-- C9: with `auto_identify` false, on a network where no node carries a
`main_node_id` (or every group has fewer than 2 members),
`consolidateComplexIntersections` is a complete no-op: the node and link
dicts, all their fields and both counters are unchanged. -/
theorem claim_C9_consolidate_noop (network : Network) (int_buffer : ℚ)
    (lonlatPrec localPrec : Nat)
    (h : (∀ pr ∈ network.node_dict, pr.2.main_node_id = none) ∨
         (∀ g ∈ buildNodeGroups network.node_dict, g.2.length < 2)) :
    consolidateComplexIntersections network false int_buffer lonlatPrec
      localPrec = network := by
  have hsmall : ∀ g ∈ buildNodeGroups network.node_dict, g.2.length < 2 := by
    rcases h with h | h
    · rw [buildNodeGroups_no_main network.node_dict h]
      intro g hg
      simp at hg
    · exact h
  show consolidateGroups lonlatPrec localPrec
    (buildNodeGroups network.node_dict) network = network
  exact consolidateGroups_small _ _ _ _ hsmall

/-- Witness for C9 on the ungrouped example chain. -/
theorem claim_C9_witness :
    consolidateComplexIntersections exNet false 10 7 2 = exNet :=
  claim_C9_consolidate_noop exNet 10 7 2 (Or.inl (by decide))

/-! ## Endpoint evolution -/

theorem bigCount_cons (g : Nat × List Node) (l : List (Nat × List Node)) :
    bigCount (g :: l) = (if 2 ≤ g.2.length then 1 else 0) + bigCount l := by
  by_cases hg : 2 ≤ g.2.length <;> simp [bigCount, List.filter_cons, hg] <;>
    omega

theorem bigCount_append (d1 d2 : List (Nat × List Node)) :
    bigCount (d1 ++ d2) = bigCount d1 + bigCount d2 := by
  simp [bigCount, List.filter_append]

theorem epAfter_of_no_hit :
    ∀ (done : List (Nat × List Node)) (base e partner : Nat),
    (∀ g ∈ done, 2 ≤ g.2.length →
      ¬ (e ∈ idsOf g.2 ∧ partner ∉ idsOf g.2)) →
    epAfter base done e partner = e := by
  intro done
  induction done with
  | nil => intro base e partner _; rfl
  | cons g rest ih =>
      intro base e partner h
      by_cases hg : 2 ≤ g.2.length
      · have hc := h g (by simp) hg
        simp only [epAfter, if_pos hg, if_neg hc]
        exact ih _ _ _ (fun g' hg' => h g' (List.mem_cons_of_mem _ hg'))
      · simp only [epAfter, hg, if_false, ite_false]
        exact ih _ _ _ (fun g' hg' => h g' (List.mem_cons_of_mem _ hg'))

theorem epAfter_cases :
    ∀ (done : List (Nat × List Node)) (base e partner : Nat),
    epAfter base done e partner = e ∨
      (base ≤ epAfter base done e partner ∧
        ∃ g ∈ done, 2 ≤ g.2.length ∧ e ∈ idsOf g.2 ∧
          partner ∉ idsOf g.2) := by
  intro done
  induction done with
  | nil => intro base e partner; left; rfl
  | cons g rest ih =>
      intro base e partner
      by_cases hg : 2 ≤ g.2.length
      · by_cases hc : e ∈ idsOf g.2 ∧ partner ∉ idsOf g.2
        · right
          simp only [epAfter, if_pos hg, if_pos hc]
          exact ⟨le_refl _, g, by simp, hg, hc⟩
        · simp only [epAfter, if_pos hg, if_neg hc]
          rcases ih (base + 1) e partner with h | ⟨h1, g', hg', hprops⟩
          · left; exact h
          · right
            exact ⟨by omega, g', List.mem_cons_of_mem _ hg', hprops⟩
      · simp only [epAfter, hg, if_false, ite_false]
        rcases ih base e partner with h | ⟨h1, g', hg', hprops⟩
        · left; exact h
        · right
          exact ⟨h1, g', List.mem_cons_of_mem _ hg', hprops⟩

theorem epAfter_mem_equiv (done : List (Nat × List Node))
    (base e partner : Nat) (ids : List Nat)
    (hlt : ∀ a ∈ ids, a < base)
    (hdisj : ∀ g ∈ done, 2 ≤ g.2.length → ∀ a ∈ idsOf g.2, a ∉ ids) :
    (epAfter base done e partner ∈ ids ↔ e ∈ ids) := by
  rcases epAfter_cases done base e partner with h | ⟨h1, g, hg, hbig, he, _⟩
  · rw [h]
  · constructor
    · intro hmem
      exact absurd h1 (by have := hlt _ hmem; omega)
    · intro hmem
      exact absurd hmem (hdisj g hg hbig e he)

theorem epAfter_append_of_no_hit :
    ∀ (d1 : List (Nat × List Node)) (d2 : List (Nat × List Node))
      (base e partner : Nat),
    (∀ g ∈ d1, 2 ≤ g.2.length →
      ¬ (e ∈ idsOf g.2 ∧ partner ∉ idsOf g.2)) →
    epAfter base (d1 ++ d2) e partner
      = epAfter (base + bigCount d1) d2 e partner := by
  intro d1
  induction d1 with
  | nil => intro d2 base e partner _; simp [bigCount]
  | cons g rest ih =>
      intro d2 base e partner h
      by_cases hg : 2 ≤ g.2.length
      · have hc := h g (by simp) hg
        simp only [List.cons_append, epAfter, if_pos hg, if_neg hc,
          List.append_eq]
        rw [ih d2 (base + 1) e partner
          (fun g' hg' => h g' (List.mem_cons_of_mem _ hg'))]
        congr 1
        rw [bigCount_cons, if_pos hg]
        omega
      · simp only [List.cons_append, epAfter, hg, if_false, ite_false,
          List.append_eq]
        rw [ih d2 base e partner
          (fun g' hg' => h g' (List.mem_cons_of_mem _ hg'))]
        congr 1
        rw [bigCount_cons, if_neg hg]
        omega

theorem epAfter_append_of_hit :
    ∀ (d1 : List (Nat × List Node)) (d2 : List (Nat × List Node))
      (base e partner : Nat),
    (∃ g ∈ d1, 2 ≤ g.2.length ∧ e ∈ idsOf g.2 ∧ partner ∉ idsOf g.2) →
    epAfter base (d1 ++ d2) e partner = epAfter base d1 e partner := by
  intro d1
  induction d1 with
  | nil => intro d2 base e partner h; simp at h
  | cons g rest ih =>
      intro d2 base e partner h
      by_cases hg : 2 ≤ g.2.length
      · by_cases hc : e ∈ idsOf g.2 ∧ partner ∉ idsOf g.2
        · simp only [List.cons_append, epAfter, if_pos hg, if_pos hc]
        · simp only [List.cons_append, epAfter, if_pos hg, if_neg hc,
            List.append_eq]
          apply ih
          rcases h with ⟨g', hg', hprops⟩
          rcases List.mem_cons.mp hg' with h1 | h2
          · exact absurd ⟨h1 ▸ hprops.2.1, h1 ▸ hprops.2.2⟩ hc
          · exact ⟨g', h2, hprops⟩
      · simp only [List.cons_append, epAfter, hg, if_false, ite_false,
          List.append_eq]
        apply ih
        rcases h with ⟨g', hg', hprops⟩
        rcases List.mem_cons.mp hg' with h1 | h2
        · exact absurd (h1 ▸ hprops.1) hg
        · exact ⟨g', h2, hprops⟩

/-! ## Replacement lists -/

theorem replList_append (p q : Nat) (links : List (Nat × Link)) :
    ∀ (d1 d2 : List (Nat × List Node)) (base : Nat),
    replList p q links base (d1 ++ d2)
      = replList p q links base d1
        ++ replList p q links (base + bigCount d1) d2 := by
  intro d1
  induction d1 with
  | nil => intro d2 base; simp [replList, bigCount]
  | cons g rest ih =>
      intro d2 base
      by_cases hg : 2 ≤ g.2.length
      · simp only [List.cons_append, replList, if_pos hg, List.append_eq]
        rw [ih d2 (base + 1), bigCount_cons, if_pos hg,
          show base + (1 + bigCount rest) = base + 1 + bigCount rest by omega]
      · simp only [List.cons_append, replList, hg, if_false, ite_false,
          List.append_eq]
        rw [ih d2 base, bigCount_cons, if_neg hg]
        simp

theorem replList_keys_range (p q : Nat) (links : List (Nat × Link)) :
    ∀ (done : List (Nat × List Node)) (base : Nat) (pr : Nat × Node),
    pr ∈ replList p q links base done →
    base ≤ pr.1 ∧ pr.1 < base + bigCount done := by
  intro done
  induction done with
  | nil => intro base pr h; simp [replList] at h
  | cons g rest ih =>
      intro base pr h
      by_cases hg : 2 ≤ g.2.length
      · rw [replList, if_pos hg] at h
        rw [bigCount_cons, if_pos hg]
        rcases List.mem_cons.mp h with h1 | h2
        · rw [h1]
          simp
        · have := ih (base + 1) pr h2
          omega
      · rw [replList, if_neg hg] at h
        rw [bigCount_cons, if_neg hg]
        have := ih base pr h
        omega

theorem replList_mem (p q : Nat) (links : List (Nat × Link))
    (d1 d2 : List (Nat × List Node)) (g : Nat × List Node) (base : Nat)
    (hg : 2 ≤ g.2.length) :
    (base + bigCount d1,
      replNode p q links g (base + bigCount d1))
        ∈ replList p q links base (d1 ++ g :: d2) := by
  rw [replList_append]
  apply List.mem_append_right
  rw [replList, if_pos hg]
  exact List.mem_cons_self _ _

/-! ## The group partition -/

theorem dictAppend_lookup_self (d : List (Nat × List Node)) (k : Nat)
    (nd : Node) :
    dictLookup (dictAppend d k nd) k
      = some ((dictLookup d k).getD [] ++ [nd]) := by
  induction d with
  | nil => simp [dictAppend, dictLookup]
  | cons p rest ih =>
      by_cases h : p.1 = k
      · simp [dictAppend, dictLookup, h]
      · simp [dictAppend, dictLookup, h, ih]

theorem dictAppend_lookup_ne (d : List (Nat × List Node)) (k k' : Nat)
    (nd : Node) (h : k' ≠ k) :
    dictLookup (dictAppend d k nd) k' = dictLookup d k' := by
  have hkk : ¬ k = k' := fun he => h he.symm
  induction d with
  | nil => simp [dictAppend, dictLookup, hkk]
  | cons p rest ih =>
      by_cases h1 : p.1 = k
      · subst h1
        simp [dictAppend, dictLookup, hkk]
      · by_cases h2 : p.1 = k'
        · simp [dictAppend, dictLookup, h1, h2, h]
        · simp [dictAppend, dictLookup, h1, h2, ih]

theorem dictAppend_keys (d : List (Nat × List Node)) (k : Nat) (nd : Node) :
    (dictAppend d k nd).map Prod.fst =
      if k ∈ d.map Prod.fst then d.map Prod.fst
      else d.map Prod.fst ++ [k] := by
  induction d with
  | nil => simp [dictAppend]
  | cons p rest ih =>
      by_cases h : p.1 = k
      · simp [dictAppend, h]
      · have : ¬ k = p.1 := fun he => h he.symm
        simp only [dictAppend, h, if_false, ite_false, List.map_cons, ih,
          List.mem_cons, this, false_or]
        by_cases h2 : k ∈ rest.map Prod.fst <;> simp [h2]

theorem buildAux_lookup :
    ∀ (nodes : List (Nat × Node)) (acc : List (Nat × List Node)) (m : Nat),
    dictLookup (nodes.foldl (fun acc p =>
        match p.2.main_node_id with
        | some m' => dictAppend acc m' p.2
        | none => acc) acc) m
      = match dictLookup acc m with
        | some l => some (l ++
            (nodes.filter (fun pr => pr.2.main_node_id = some m)).map
              Prod.snd)
        | none =>
            if (nodes.filter (fun pr => pr.2.main_node_id = some m)).map
                Prod.snd = [] then none
            else some ((nodes.filter
              (fun pr => pr.2.main_node_id = some m)).map Prod.snd) := by
  intro nodes
  induction nodes with
  | nil =>
      intro acc m
      cases h : dictLookup acc m <;> simp [h]
  | cons pr rest ih =>
      intro acc m
      simp only [List.foldl_cons]
      cases hm : pr.2.main_node_id with
      | none =>
          simp only [hm]
          rw [ih acc m]
          have hf : (pr :: rest).filter
              (fun pr => pr.2.main_node_id = some m)
              = rest.filter (fun pr => pr.2.main_node_id = some m) := by
            simp [List.filter_cons, hm]
          rw [hf]
      | some m' =>
          simp only [hm]
          by_cases hmm : m' = m
          · subst hmm
            have hf : (pr :: rest).filter
                (fun pr => pr.2.main_node_id = some m')
                = pr :: rest.filter
                    (fun pr => pr.2.main_node_id = some m') := by
              simp [List.filter_cons, hm]
            rw [ih (dictAppend acc m' pr.2) m', hf,
              dictAppend_lookup_self]
            cases h : dictLookup acc m' <;>
              simp [h, List.append_assoc]
          · have hf : (pr :: rest).filter
                (fun pr => pr.2.main_node_id = some m)
                = rest.filter (fun pr => pr.2.main_node_id = some m) := by
              simp [List.filter_cons, hm, hmm]
            rw [ih (dictAppend acc m' pr.2) m, hf,
              dictAppend_lookup_ne acc m' m pr.2 (fun he => hmm he.symm)]

theorem buildNodeGroups_lookup (nodes : List (Nat × Node)) (m : Nat) :
    dictLookup (buildNodeGroups nodes) m
      = if (nodes.filter (fun pr => pr.2.main_node_id = some m)).map
            Prod.snd = [] then none
        else some ((nodes.filter
          (fun pr => pr.2.main_node_id = some m)).map Prod.snd) := by
  unfold buildNodeGroups
  rw [buildAux_lookup nodes [] m]
  rfl

theorem buildNodeGroups_keys_nodup (nodes : List (Nat × Node)) :
    ((buildNodeGroups nodes).map Prod.fst).Nodup := by
  unfold buildNodeGroups
  have : ∀ (l : List (Nat × Node)) (acc : List (Nat × List Node)),
      (acc.map Prod.fst).Nodup →
      ((l.foldl (fun acc p =>
          match p.2.main_node_id with
          | some m' => dictAppend acc m' p.2
          | none => acc) acc).map Prod.fst).Nodup := by
    intro l
    induction l with
    | nil => intro acc h; exact h
    | cons pr rest ih =>
        intro acc h
        simp only [List.foldl_cons]
        apply ih
        cases hm : pr.2.main_node_id with
        | none => simpa [hm] using h
        | some m' =>
            simp only [hm]
            rw [dictAppend_keys]
            by_cases hmem : m' ∈ acc.map Prod.fst
            · rw [if_pos hmem]; exact h
            · rw [if_neg hmem]
              simp [List.nodup_append, h, hmem]
  exact this nodes [] (by simp)

theorem buildNodeGroups_mem_char {nodes : List (Nat × Node)} {m : Nat}
    {mem : List Node} (h : (m, mem) ∈ buildNodeGroups nodes) :
    mem = (nodes.filter (fun pr => pr.2.main_node_id = some m)).map
      Prod.snd := by
  have h2 := dictLookup_eq_some_of_mem (buildNodeGroups_keys_nodup nodes) h
  rw [buildNodeGroups_lookup] at h2
  by_cases hf : (nodes.filter (fun pr => pr.2.main_node_id = some m)).map
      Prod.snd = []
  · rw [if_pos hf] at h2
    cases h2
  · rw [if_neg hf] at h2
    exact (Option.some.inj h2).symm

theorem buildNodeGroups_ok (net : Network) (hwf : net.wf) :
    GroupsOK net.node_dict net.max_node_id
      (buildNodeGroups net.node_dict) := by
  obtain ⟨w1, w2, _, _, _, _, _, _, _, w10⟩ := hwf
  have hentry : ∀ g ∈ buildNodeGroups net.node_dict, ∀ nd ∈ g.2,
      (nd.node_id, nd) ∈ net.node_dict := by
    intro g hg nd hnd
    obtain ⟨m, mem⟩ := g
    rw [buildNodeGroups_mem_char hg] at hnd
    rcases List.mem_map.mp hnd with ⟨pr, hpr, hpr2⟩
    have hprn := List.mem_of_mem_filter hpr
    have := w2 pr hprn
    rw [← hpr2, this]
    exact hprn
  constructor
  · exact hentry
  · intro g hg nd hnd
    obtain ⟨m, mem⟩ := g
    rw [buildNodeGroups_mem_char hg] at hnd
    rcases List.mem_map.mp hnd with ⟨pr, hpr, hpr2⟩
    have := List.of_mem_filter hpr
    rw [← hpr2]
    simpa using this
  · exact buildNodeGroups_keys_nodup net.node_dict
  · intro g hg
    obtain ⟨m, mem⟩ := g
    have hchar := buildNodeGroups_mem_char hg
    show (idsOf mem).Nodup
    rw [hchar]
    unfold idsOf
    rw [List.map_map]
    have he : (net.node_dict.filter
          (fun pr => pr.2.main_node_id = some m)).map
          (Node.node_id ∘ Prod.snd)
        = (net.node_dict.filter
            (fun pr => pr.2.main_node_id = some m)).map Prod.fst := by
      apply List.map_congr_left
      intro pr hpr
      exact w2 pr (List.mem_of_mem_filter hpr)
    rw [he]
    exact w1.sublist (List.Sublist.map _ (List.filter_sublist _))
  · intro g hg nd hnd
    have := hentry g hg nd hnd
    exact w10 (nd.node_id, nd) this

theorem GroupsOK.disjoint {nodes : List (Nat × Node)} {max₀ : Nat}
    {glist : List (Nat × List Node)}
    (hok : GroupsOK nodes max₀ glist)
    (hkeys : (nodes.map Prod.fst).Nodup) :
    ∀ g ∈ glist, ∀ g' ∈ glist, g.1 ≠ g'.1 →
      ∀ a, a ∈ idsOf g.2 → a ∉ idsOf g'.2 := by
  intro g hg g' hg' hne a ha ha'
  rcases List.mem_map.mp ha with ⟨nd, hnd, hnd2⟩
  rcases List.mem_map.mp ha' with ⟨nd', hnd', hnd2'⟩
  have he1 := hok.mem_entry g hg nd hnd
  have he2 := hok.mem_entry g' hg' nd' hnd'
  rw [hnd2] at he1
  rw [hnd2'] at he2
  have l1 := dictLookup_eq_some_of_mem hkeys he1
  have l2 := dictLookup_eq_some_of_mem hkeys he2
  rw [l1] at l2
  have hnd_eq : nd = nd' := Option.some.inj l2
  have hm1 := hok.mem_main g hg nd hnd
  have hm2 := hok.mem_main g' hg' nd' hnd'
  rw [hnd_eq, hm2] at hm1
  exact hne (Option.some.inj hm1).symm

/-! ## Adjacency correspondences -/

theorem mem_flatMap_incoming_iff (net : Network) (hwf : net.wf)
    (mem : List Node)
    (hmem : ∀ nd ∈ mem, (nd.node_id, nd) ∈ net.node_dict)
    (b : Nat) (l : Link) (hb : dictLookup net.link_dict b = some l) :
    b ∈ mem.flatMap (fun nd => nd.incoming_link_list)
      ↔ l.to_node ∈ idsOf mem := by
  obtain ⟨w1, _, _, _, _, w6, _, w8, _, _⟩ := hwf
  constructor
  · intro h
    rcases List.mem_flatMap.mp h with ⟨nd, hnd, hbin⟩
    have h6 := w6 (nd.node_id, nd) (hmem nd hnd) b hbin
    unfold linkToIs at h6
    rw [hb] at h6
    have : l.to_node = nd.node_id := by simpa using h6
    rw [this]
    exact List.mem_map.mpr ⟨nd, hnd, rfl⟩
  · intro h
    rcases List.mem_map.mp h with ⟨nd, hnd, hid⟩
    have h8 := w8 (b, l) (dictLookup_mem hb)
    unfold inIncomingOf at h8
    have hl : dictLookup net.node_dict l.to_node = some nd := by
      rw [← hid]
      exact dictLookup_eq_some_of_mem w1 (hmem nd hnd)
    rw [hl] at h8
    have : b ∈ nd.incoming_link_list := by simpa using h8
    exact List.mem_flatMap.mpr ⟨nd, hnd, this⟩

theorem mem_flatMap_outgoing_iff (net : Network) (hwf : net.wf)
    (mem : List Node)
    (hmem : ∀ nd ∈ mem, (nd.node_id, nd) ∈ net.node_dict)
    (b : Nat) (l : Link) (hb : dictLookup net.link_dict b = some l) :
    b ∈ mem.flatMap (fun nd => nd.outgoing_link_list)
      ↔ l.from_node ∈ idsOf mem := by
  obtain ⟨w1, _, _, _, _, _, w7, _, w9, _⟩ := hwf
  constructor
  · intro h
    rcases List.mem_flatMap.mp h with ⟨nd, hnd, hbin⟩
    have h7 := w7 (nd.node_id, nd) (hmem nd hnd) b hbin
    unfold linkFromIs at h7
    rw [hb] at h7
    have : l.from_node = nd.node_id := by simpa using h7
    rw [this]
    exact List.mem_map.mpr ⟨nd, hnd, rfl⟩
  · intro h
    rcases List.mem_map.mp h with ⟨nd, hnd, hid⟩
    have h9 := w9 (b, l) (dictLookup_mem hb)
    unfold inOutgoingOf at h9
    have hl : dictLookup net.node_dict l.from_node = some nd := by
      rw [← hid]
      exact dictLookup_eq_some_of_mem w1 (hmem nd hnd)
    rw [hl] at h9
    have : b ∈ nd.outgoing_link_list := by simpa using h9
    exact List.mem_flatMap.mpr ⟨nd, hnd, this⟩

theorem foldl_preserves {α β γ : Type} (f : α → β → α) (proj : α → γ)
    (h : ∀ s b, proj (f s b) = proj s) :
    ∀ (l : List β) (s : α), proj (l.foldl f s) = proj s := by
  intro l
  induction l with
  | nil => intro s; rfl
  | cons b t ih =>
      intro s
      rw [List.foldl_cons, ih (f s b), h s b]

theorem procIn_frame (memberIds : List Nat) (newId : Nat)
    (s : ConsState × NewAcc) (lid : Nat) :
    (procIn memberIds newId s lid).1.node_dict = s.1.node_dict ∧
    (procIn memberIds newId s lid).1.max_node_id = s.1.max_node_id ∧
    (procIn memberIds newId s lid).1.removal_node_set
      = s.1.removal_node_set ∧
    (procIn memberIds newId s lid).2.osm_ids = s.2.osm_ids ∧
    (procIn memberIds newId s lid).2.x_sum = s.2.x_sum ∧
    (procIn memberIds newId s lid).2.y_sum = s.2.y_sum ∧
    (procIn memberIds newId s lid).2.xy_x_sum = s.2.xy_x_sum ∧
    (procIn memberIds newId s lid).2.xy_y_sum = s.2.xy_y_sum ∧
    (procIn memberIds newId s lid).2.new_out = s.2.new_out ∧
    (procIn memberIds newId s lid).2.highway = s.2.highway := by
  unfold procIn
  cases dictLookup s.1.link_dict lid with
  | none => exact ⟨rfl, rfl, rfl, rfl, rfl, rfl, rfl, rfl, rfl, rfl⟩
  | some link =>
      by_cases h : link.from_node ∈ memberIds <;>
        simp [h]

theorem procOut_frame (memberIds : List Nat) (newId : Nat)
    (s : ConsState × NewAcc) (lid : Nat) :
    (procOut memberIds newId s lid).1.node_dict = s.1.node_dict ∧
    (procOut memberIds newId s lid).1.max_node_id = s.1.max_node_id ∧
    (procOut memberIds newId s lid).1.removal_node_set
      = s.1.removal_node_set ∧
    (procOut memberIds newId s lid).2.osm_ids = s.2.osm_ids ∧
    (procOut memberIds newId s lid).2.x_sum = s.2.x_sum ∧
    (procOut memberIds newId s lid).2.y_sum = s.2.y_sum ∧
    (procOut memberIds newId s lid).2.xy_x_sum = s.2.xy_x_sum ∧
    (procOut memberIds newId s lid).2.xy_y_sum = s.2.xy_y_sum ∧
    (procOut memberIds newId s lid).2.new_in = s.2.new_in ∧
    (procOut memberIds newId s lid).2.highway = s.2.highway := by
  unfold procOut
  cases dictLookup s.1.link_dict lid with
  | none => exact ⟨rfl, rfl, rfl, rfl, rfl, rfl, rfl, rfl, rfl, rfl⟩
  | some link =>
      by_cases h : link.to_node ∈ memberIds <;>
        simp [h]

/-! ## The link scans of one member -/

theorem procIn_step
    (links₀ : List (Nat × Link)) (max₀ : Nat)
    (done : List (Nat × List Node)) (memIds : List Nat)
    (newId : Nat) (inDone outDone : List Nat)
    (hkeys : (links₀.map Prod.fst).Nodup)
    (hmemlt : ∀ a ∈ memIds, a < max₀)
    (hdisj : ∀ g ∈ done, 2 ≤ g.2.length → ∀ a ∈ idsOf g.2, a ∉ memIds)
    (a : Nat) (l₀ : Link)
    (hl : dictLookup links₀ a = some l₀)
    (hto : l₀.to_node ∈ memIds)
    (hnotin : a ∉ inDone)
    (s : ConsState × NewAcc)
    (hlinks : s.1.link_dict
      = mapEntries (linkF max₀ done memIds inDone outDone newId) links₀)
    (hreml : ∀ b, b ∈ s.1.removal_link_set ↔
      remlF links₀ done memIds inDone outDone b)
    (hin : s.2.new_in = inDone.filter (testExternalIn links₀ memIds)) :
    (procIn memIds newId s a).1.link_dict
      = mapEntries (linkF max₀ done memIds (inDone ++ [a]) outDone newId)
          links₀ ∧
    (∀ b, b ∈ (procIn memIds newId s a).1.removal_link_set ↔
      remlF links₀ done memIds (inDone ++ [a]) outDone b) ∧
    (procIn memIds newId s a).2.new_in
      = (inDone ++ [a]).filter (testExternalIn links₀ memIds) := by
  have hcur : dictLookup s.1.link_dict a
      = some { l₀ with
          from_node := epAfter max₀ done l₀.from_node l₀.to_node,
          to_node := epAfter max₀ done l₀.to_node l₀.from_node } := by
    rw [hlinks, dictLookup_mapEntries, hl]
    simp [linkF, hnotin, hto]
  have hequiv : (epAfter max₀ done l₀.from_node l₀.to_node ∈ memIds
      ↔ l₀.from_node ∈ memIds) :=
    epAfter_mem_equiv done max₀ l₀.from_node l₀.to_node memIds hmemlt hdisj
  by_cases hfrom : l₀.from_node ∈ memIds
  · -- intra-group occurrence: mark for removal
    have hstep : procIn memIds newId s a
        = ({ s.1 with
              removal_link_set := insert a s.1.removal_link_set }, s.2) := by
      unfold procIn
      rw [hcur]
      simp [hequiv.mpr hfrom]
    rw [hstep]
    refine ⟨?_, ?_, ?_⟩
    · rw [hlinks]
      apply mapEntries_congr
      intro pr hpr
      by_cases hpa : pr.1 = a
      · have : dictLookup links₀ pr.1 = some pr.2 :=
          dictLookup_eq_some_of_mem hkeys (by
            cases pr
            exact hpr)
        rw [hpa, hl] at this
        have hval : pr.2 = l₀ := (Option.some.inj this).symm
        simp [linkF, hval, hfrom]
      · have hmemiff : pr.1 ∈ inDone ++ [a] ↔ pr.1 ∈ inDone := by
          simp [List.mem_append, hpa]
        simp only [linkF, hmemiff]
    · intro b
      simp only [Finset.mem_insert, hreml b]
      constructor
      · rintro (hb | hb)
        · subst hb
          exact Or.inr ⟨l₀, hl, hfrom, hto, Or.inl (by simp)⟩
        · rcases hb with hb | ⟨l, hlb, hf, ht, hio⟩
          · exact Or.inl hb
          · refine Or.inr ⟨l, hlb, hf, ht, ?_⟩
            rcases hio with h1 | h1
            · exact Or.inl (by simp [List.mem_append, h1])
            · exact Or.inr h1
      · rintro (hb | ⟨l, hlb, hf, ht, hio⟩)
        · exact Or.inr (Or.inl hb)
        · rcases hio with h1 | h1
          · rcases List.mem_append.mp h1 with h2 | h2
            · exact Or.inr (Or.inr ⟨l, hlb, hf, ht, Or.inl h2⟩)
            · exact Or.inl (by simpa using h2)
          · exact Or.inr (Or.inr ⟨l, hlb, hf, ht, Or.inr h1⟩)
    · rw [hin, List.filter_append]
      have : testExternalIn links₀ memIds a = false := by
        unfold testExternalIn
        rw [hl]
        simpa using hfrom
      simp [List.filter_cons, this]
  · -- external occurrence: rewire the destination endpoint
    have hstep : procIn memIds newId s a
        = ({ s.1 with
              link_dict := dictSet s.1.link_dict a
                { l₀ with
                    from_node := epAfter max₀ done l₀.from_node l₀.to_node,
                    to_node := newId } },
           { s.2 with new_in := s.2.new_in ++ [a] }) := by
      unfold procIn
      rw [hcur]
      have : ¬ epAfter max₀ done l₀.from_node l₀.to_node ∈ memIds :=
        fun hmm => hfrom (hequiv.mp hmm)
      simp [this]
    rw [hstep]
    refine ⟨?_, ?_, ?_⟩
    · show dictSet s.1.link_dict a _ = _
      rw [hlinks]
      apply dictSet_mapEntries hkeys
      · exact List.mem_map.mpr ⟨(a, l₀), dictLookup_mem hl, rfl⟩
      · intro x hx
        rw [hl] at hx
        have hval : x = l₀ := (Option.some.inj hx).symm
        subst hval
        simp [linkF, hfrom, hto]
      · intro k x hk
        have hmemiff : k ∈ inDone ++ [a] ↔ k ∈ inDone := by
          simp [List.mem_append, hk]
        simp only [linkF, hmemiff]
    · intro b
      simp only [hreml b]
      unfold remlF
      constructor
      · rintro (hb | ⟨l, hlb, hf, ht, hio⟩)
        · exact Or.inl hb
        · refine Or.inr ⟨l, hlb, hf, ht, ?_⟩
          rcases hio with h1 | h1
          · exact Or.inl (by simp [List.mem_append, h1])
          · exact Or.inr h1
      · rintro (hb | ⟨l, hlb, hf, ht, hio⟩)
        · exact Or.inl hb
        · refine Or.inr ⟨l, hlb, hf, ht, ?_⟩
          rcases hio with h1 | h1
          · rcases List.mem_append.mp h1 with h2 | h2
            · exact Or.inl h2
            · exfalso
              have hba : b = a := by simpa using h2
              rw [hba, hl] at hlb
              exact hfrom ((Option.some.inj hlb) ▸ hf)
          · exact Or.inr h1
    · show s.2.new_in ++ [a] = _
      rw [hin, List.filter_append]
      have : testExternalIn links₀ memIds a = true := by
        unfold testExternalIn
        rw [hl]
        simpa using hfrom
      simp [List.filter_cons, this]

theorem procOut_step
    (links₀ : List (Nat × Link)) (max₀ : Nat)
    (done : List (Nat × List Node)) (memIds : List Nat)
    (newId : Nat) (inDone outDone : List Nat)
    (hkeys : (links₀.map Prod.fst).Nodup)
    (hmemlt : ∀ a ∈ memIds, a < max₀)
    (hdisj : ∀ g ∈ done, 2 ≤ g.2.length → ∀ a ∈ idsOf g.2, a ∉ memIds)
    (a : Nat) (l₀ : Link)
    (hl : dictLookup links₀ a = some l₀)
    (hfrom : l₀.from_node ∈ memIds)
    (hnotin : a ∉ outDone)
    (s : ConsState × NewAcc)
    (hlinks : s.1.link_dict
      = mapEntries (linkF max₀ done memIds inDone outDone newId) links₀)
    (hreml : ∀ b, b ∈ s.1.removal_link_set ↔
      remlF links₀ done memIds inDone outDone b)
    (hout : s.2.new_out = outDone.filter (testExternalOut links₀ memIds)) :
    (procOut memIds newId s a).1.link_dict
      = mapEntries (linkF max₀ done memIds inDone (outDone ++ [a]) newId)
          links₀ ∧
    (∀ b, b ∈ (procOut memIds newId s a).1.removal_link_set ↔
      remlF links₀ done memIds inDone (outDone ++ [a]) b) ∧
    (procOut memIds newId s a).2.new_out
      = (outDone ++ [a]).filter (testExternalOut links₀ memIds) := by
  have hcur : dictLookup s.1.link_dict a
      = some { l₀ with
          from_node := epAfter max₀ done l₀.from_node l₀.to_node,
          to_node := epAfter max₀ done l₀.to_node l₀.from_node } := by
    rw [hlinks, dictLookup_mapEntries, hl]
    simp [linkF, hnotin, hfrom]
  have hequiv : (epAfter max₀ done l₀.to_node l₀.from_node ∈ memIds
      ↔ l₀.to_node ∈ memIds) :=
    epAfter_mem_equiv done max₀ l₀.to_node l₀.from_node memIds hmemlt hdisj
  by_cases hto : l₀.to_node ∈ memIds
  · -- intra-group occurrence: mark for removal
    have hstep : procOut memIds newId s a
        = ({ s.1 with
              removal_link_set := insert a s.1.removal_link_set }, s.2) := by
      unfold procOut
      rw [hcur]
      simp [hequiv.mpr hto]
    rw [hstep]
    refine ⟨?_, ?_, ?_⟩
    · rw [hlinks]
      apply mapEntries_congr
      intro pr hpr
      by_cases hpa : pr.1 = a
      · have : dictLookup links₀ pr.1 = some pr.2 :=
          dictLookup_eq_some_of_mem hkeys (by
            cases pr
            exact hpr)
        rw [hpa, hl] at this
        have hval : pr.2 = l₀ := (Option.some.inj this).symm
        simp [linkF, hval, hto]
      · have hmemiff : pr.1 ∈ outDone ++ [a] ↔ pr.1 ∈ outDone := by
          simp [List.mem_append, hpa]
        simp only [linkF, hmemiff]
    · intro b
      simp only [Finset.mem_insert, hreml b]
      constructor
      · rintro (hb | hb)
        · subst hb
          exact Or.inr ⟨l₀, hl, hfrom, hto, Or.inr (by simp)⟩
        · rcases hb with hb | ⟨l, hlb, hf, ht, hio⟩
          · exact Or.inl hb
          · refine Or.inr ⟨l, hlb, hf, ht, ?_⟩
            rcases hio with h1 | h1
            · exact Or.inl h1
            · exact Or.inr (by simp [List.mem_append, h1])
      · rintro (hb | ⟨l, hlb, hf, ht, hio⟩)
        · exact Or.inr (Or.inl hb)
        · rcases hio with h1 | h1
          · exact Or.inr (Or.inr ⟨l, hlb, hf, ht, Or.inl h1⟩)
          · rcases List.mem_append.mp h1 with h2 | h2
            · exact Or.inr (Or.inr ⟨l, hlb, hf, ht, Or.inr h2⟩)
            · exact Or.inl (by simpa using h2)
    · rw [hout, List.filter_append]
      have : testExternalOut links₀ memIds a = false := by
        unfold testExternalOut
        rw [hl]
        simpa using hto
      simp [List.filter_cons, this]
  · -- external occurrence: rewire the source endpoint
    have hstep : procOut memIds newId s a
        = ({ s.1 with
              link_dict := dictSet s.1.link_dict a
                { l₀ with
                    from_node := newId,
                    to_node := epAfter max₀ done l₀.to_node l₀.from_node } },
           { s.2 with new_out := s.2.new_out ++ [a] }) := by
      unfold procOut
      rw [hcur]
      have : ¬ epAfter max₀ done l₀.to_node l₀.from_node ∈ memIds :=
        fun hmm => hto (hequiv.mp hmm)
      simp [this]
    rw [hstep]
    refine ⟨?_, ?_, ?_⟩
    · show dictSet s.1.link_dict a _ = _
      rw [hlinks]
      apply dictSet_mapEntries hkeys
      · exact List.mem_map.mpr ⟨(a, l₀), dictLookup_mem hl, rfl⟩
      · intro x hx
        rw [hl] at hx
        have hval : x = l₀ := (Option.some.inj hx).symm
        subst hval
        simp [linkF, hfrom, hto]
      · intro k x hk
        have hmemiff : k ∈ outDone ++ [a] ↔ k ∈ outDone := by
          simp [List.mem_append, hk]
        simp only [linkF, hmemiff]
    · intro b
      simp only [hreml b]
      unfold remlF
      constructor
      · rintro (hb | ⟨l, hlb, hf, ht, hio⟩)
        · exact Or.inl hb
        · refine Or.inr ⟨l, hlb, hf, ht, ?_⟩
          rcases hio with h1 | h1
          · exact Or.inl h1
          · exact Or.inr (by simp [List.mem_append, h1])
      · rintro (hb | ⟨l, hlb, hf, ht, hio⟩)
        · exact Or.inl hb
        · refine Or.inr ⟨l, hlb, hf, ht, ?_⟩
          rcases hio with h1 | h1
          · exact Or.inl h1
          · rcases List.mem_append.mp h1 with h2 | h2
            · exact Or.inr h2
            · exfalso
              have hba : b = a := by simpa using h2
              rw [hba, hl] at hlb
              exact hto ((Option.some.inj hlb) ▸ ht)
    · show s.2.new_out ++ [a] = _
      rw [hout, List.filter_append]
      have : testExternalOut links₀ memIds a = true := by
        unfold testExternalOut
        rw [hl]
        simpa using hto
      simp [List.filter_cons, this]

theorem foldl_procIn_frame (memIds : List Nat) (newId : Nat)
    (L : List Nat) (s : ConsState × NewAcc) :
    (L.foldl (procIn memIds newId) s).1.node_dict = s.1.node_dict ∧
    (L.foldl (procIn memIds newId) s).1.max_node_id = s.1.max_node_id ∧
    (L.foldl (procIn memIds newId) s).1.removal_node_set
      = s.1.removal_node_set ∧
    (L.foldl (procIn memIds newId) s).2.osm_ids = s.2.osm_ids ∧
    (L.foldl (procIn memIds newId) s).2.x_sum = s.2.x_sum ∧
    (L.foldl (procIn memIds newId) s).2.y_sum = s.2.y_sum ∧
    (L.foldl (procIn memIds newId) s).2.xy_x_sum = s.2.xy_x_sum ∧
    (L.foldl (procIn memIds newId) s).2.xy_y_sum = s.2.xy_y_sum ∧
    (L.foldl (procIn memIds newId) s).2.new_out = s.2.new_out ∧
    (L.foldl (procIn memIds newId) s).2.highway = s.2.highway := by
  refine ⟨?_, ?_, ?_, ?_, ?_, ?_, ?_, ?_, ?_, ?_⟩
  · exact foldl_preserves _ (fun s => s.1.node_dict)
      (fun s b => (procIn_frame memIds newId s b).1) L s
  · exact foldl_preserves _ (fun s => s.1.max_node_id)
      (fun s b => (procIn_frame memIds newId s b).2.1) L s
  · exact foldl_preserves _ (fun s => s.1.removal_node_set)
      (fun s b => (procIn_frame memIds newId s b).2.2.1) L s
  · exact foldl_preserves _ (fun s => s.2.osm_ids)
      (fun s b => (procIn_frame memIds newId s b).2.2.2.1) L s
  · exact foldl_preserves _ (fun s => s.2.x_sum)
      (fun s b => (procIn_frame memIds newId s b).2.2.2.2.1) L s
  · exact foldl_preserves _ (fun s => s.2.y_sum)
      (fun s b => (procIn_frame memIds newId s b).2.2.2.2.2.1) L s
  · exact foldl_preserves _ (fun s => s.2.xy_x_sum)
      (fun s b => (procIn_frame memIds newId s b).2.2.2.2.2.2.1) L s
  · exact foldl_preserves _ (fun s => s.2.xy_y_sum)
      (fun s b => (procIn_frame memIds newId s b).2.2.2.2.2.2.2.1) L s
  · exact foldl_preserves _ (fun s => s.2.new_out)
      (fun s b => (procIn_frame memIds newId s b).2.2.2.2.2.2.2.2.1) L s
  · exact foldl_preserves _ (fun s => s.2.highway)
      (fun s b => (procIn_frame memIds newId s b).2.2.2.2.2.2.2.2.2) L s

theorem foldl_procOut_frame (memIds : List Nat) (newId : Nat)
    (L : List Nat) (s : ConsState × NewAcc) :
    (L.foldl (procOut memIds newId) s).1.node_dict = s.1.node_dict ∧
    (L.foldl (procOut memIds newId) s).1.max_node_id = s.1.max_node_id ∧
    (L.foldl (procOut memIds newId) s).1.removal_node_set
      = s.1.removal_node_set ∧
    (L.foldl (procOut memIds newId) s).2.osm_ids = s.2.osm_ids ∧
    (L.foldl (procOut memIds newId) s).2.x_sum = s.2.x_sum ∧
    (L.foldl (procOut memIds newId) s).2.y_sum = s.2.y_sum ∧
    (L.foldl (procOut memIds newId) s).2.xy_x_sum = s.2.xy_x_sum ∧
    (L.foldl (procOut memIds newId) s).2.xy_y_sum = s.2.xy_y_sum ∧
    (L.foldl (procOut memIds newId) s).2.new_in = s.2.new_in ∧
    (L.foldl (procOut memIds newId) s).2.highway = s.2.highway := by
  refine ⟨?_, ?_, ?_, ?_, ?_, ?_, ?_, ?_, ?_, ?_⟩
  · exact foldl_preserves _ (fun s => s.1.node_dict)
      (fun s b => (procOut_frame memIds newId s b).1) L s
  · exact foldl_preserves _ (fun s => s.1.max_node_id)
      (fun s b => (procOut_frame memIds newId s b).2.1) L s
  · exact foldl_preserves _ (fun s => s.1.removal_node_set)
      (fun s b => (procOut_frame memIds newId s b).2.2.1) L s
  · exact foldl_preserves _ (fun s => s.2.osm_ids)
      (fun s b => (procOut_frame memIds newId s b).2.2.2.1) L s
  · exact foldl_preserves _ (fun s => s.2.x_sum)
      (fun s b => (procOut_frame memIds newId s b).2.2.2.2.1) L s
  · exact foldl_preserves _ (fun s => s.2.y_sum)
      (fun s b => (procOut_frame memIds newId s b).2.2.2.2.2.1) L s
  · exact foldl_preserves _ (fun s => s.2.xy_x_sum)
      (fun s b => (procOut_frame memIds newId s b).2.2.2.2.2.2.1) L s
  · exact foldl_preserves _ (fun s => s.2.xy_y_sum)
      (fun s b => (procOut_frame memIds newId s b).2.2.2.2.2.2.2.1) L s
  · exact foldl_preserves _ (fun s => s.2.new_in)
      (fun s b => (procOut_frame memIds newId s b).2.2.2.2.2.2.2.2.1) L s
  · exact foldl_preserves _ (fun s => s.2.highway)
      (fun s b => (procOut_frame memIds newId s b).2.2.2.2.2.2.2.2.2) L s

theorem procIn_fold
    (links₀ : List (Nat × Link)) (max₀ : Nat)
    (done : List (Nat × List Node)) (memIds : List Nat) (newId : Nat)
    (hkeys : (links₀.map Prod.fst).Nodup)
    (hmemlt : ∀ a ∈ memIds, a < max₀)
    (hdisj : ∀ g ∈ done, 2 ≤ g.2.length → ∀ a ∈ idsOf g.2, a ∉ memIds) :
    ∀ (L inDone outDone : List Nat) (s : ConsState × NewAcc),
    (∀ a ∈ L, ∃ l, dictLookup links₀ a = some l ∧ l.to_node ∈ memIds) →
    (∀ a ∈ L, a ∉ inDone) → L.Nodup →
    s.1.link_dict
      = mapEntries (linkF max₀ done memIds inDone outDone newId) links₀ →
    (∀ b, b ∈ s.1.removal_link_set ↔
      remlF links₀ done memIds inDone outDone b) →
    s.2.new_in = inDone.filter (testExternalIn links₀ memIds) →
    (L.foldl (procIn memIds newId) s).1.link_dict
      = mapEntries (linkF max₀ done memIds (inDone ++ L) outDone newId)
          links₀ ∧
    (∀ b, b ∈ (L.foldl (procIn memIds newId) s).1.removal_link_set ↔
      remlF links₀ done memIds (inDone ++ L) outDone b) ∧
    (L.foldl (procIn memIds newId) s).2.new_in
      = (inDone ++ L).filter (testExternalIn links₀ memIds) := by
  intro L
  induction L with
  | nil =>
      intro inDone outDone s _ _ _ h1 h2 h3
      simpa using ⟨h1, h2, h3⟩
  | cons a t ih =>
      intro inDone outDone s hex hni hnd h1 h2 h3
      rcases hex a (by simp) with ⟨l₀, hl, hto⟩
      have hstep := procIn_step links₀ max₀ done memIds newId inDone outDone
        hkeys hmemlt hdisj a l₀ hl hto (hni a (by simp)) s h1 h2 h3
      rw [List.foldl_cons]
      have hres := ih (inDone ++ [a]) outDone (procIn memIds newId s a)
        (fun b hb => hex b (List.mem_cons_of_mem _ hb))
        (fun b hb => by
          intro hmem
          rcases List.mem_append.mp hmem with h4 | h4
          · exact hni b (List.mem_cons_of_mem _ hb) h4
          · have hba : b = a := by simpa using h4
            exact (List.nodup_cons.mp hnd).1 (hba ▸ hb))
        (List.nodup_cons.mp hnd).2
        hstep.1 hstep.2.1 hstep.2.2
      have hre : (inDone ++ [a]) ++ t = inDone ++ a :: t := by simp
      rw [hre] at hres
      exact hres

theorem procOut_fold
    (links₀ : List (Nat × Link)) (max₀ : Nat)
    (done : List (Nat × List Node)) (memIds : List Nat) (newId : Nat)
    (hkeys : (links₀.map Prod.fst).Nodup)
    (hmemlt : ∀ a ∈ memIds, a < max₀)
    (hdisj : ∀ g ∈ done, 2 ≤ g.2.length → ∀ a ∈ idsOf g.2, a ∉ memIds) :
    ∀ (L inDone outDone : List Nat) (s : ConsState × NewAcc),
    (∀ a ∈ L, ∃ l, dictLookup links₀ a = some l ∧ l.from_node ∈ memIds) →
    (∀ a ∈ L, a ∉ outDone) → L.Nodup →
    s.1.link_dict
      = mapEntries (linkF max₀ done memIds inDone outDone newId) links₀ →
    (∀ b, b ∈ s.1.removal_link_set ↔
      remlF links₀ done memIds inDone outDone b) →
    s.2.new_out = outDone.filter (testExternalOut links₀ memIds) →
    (L.foldl (procOut memIds newId) s).1.link_dict
      = mapEntries (linkF max₀ done memIds inDone (outDone ++ L) newId)
          links₀ ∧
    (∀ b, b ∈ (L.foldl (procOut memIds newId) s).1.removal_link_set ↔
      remlF links₀ done memIds inDone (outDone ++ L) b) ∧
    (L.foldl (procOut memIds newId) s).2.new_out
      = (outDone ++ L).filter (testExternalOut links₀ memIds) := by
  intro L
  induction L with
  | nil =>
      intro inDone outDone s _ _ _ h1 h2 h3
      simpa using ⟨h1, h2, h3⟩
  | cons a t ih =>
      intro inDone outDone s hex hni hnd h1 h2 h3
      rcases hex a (by simp) with ⟨l₀, hl, hfrom⟩
      have hstep := procOut_step links₀ max₀ done memIds newId inDone outDone
        hkeys hmemlt hdisj a l₀ hl hfrom (hni a (by simp)) s h1 h2 h3
      rw [List.foldl_cons]
      have hres := ih inDone (outDone ++ [a]) (procOut memIds newId s a)
        (fun b hb => hex b (List.mem_cons_of_mem _ hb))
        (fun b hb => by
          intro hmem
          rcases List.mem_append.mp hmem with h4 | h4
          · exact hni b (List.mem_cons_of_mem _ hb) h4
          · have hba : b = a := by simpa using h4
            exact (List.nodup_cons.mp hnd).1 (hba ▸ hb))
        (List.nodup_cons.mp hnd).2
        hstep.1 hstep.2.1 hstep.2.2
      have hre : (outDone ++ [a]) ++ t = outDone ++ a :: t := by simp
      rw [hre] at hres
      exact hres

theorem processMember_step (net : Network) (hwf : net.wf)
    (p q : Nat) (done : List (Nat × List Node))
    (mem mdone mrest : List Node) (nd : Node)
    (hsplit : mem = mdone ++ nd :: mrest)
    (hmem_entry : ∀ x ∈ mem, (x.node_id, x) ∈ net.node_dict)
    (hids_nodup : (idsOf mem).Nodup)
    (hids_lt : ∀ a ∈ idsOf mem, a < net.max_node_id)
    (hdisj : ∀ g ∈ done, 2 ≤ g.2.length →
      ∀ a ∈ idsOf g.2, a ∉ idsOf mem)
    (newId : Nat) (s : ConsState × NewAcc)
    (hst : MemSt p q net.node_dict net.link_dict net.max_node_id done
      (idsOf mem) newId mdone
      (mdone.flatMap (fun x => x.incoming_link_list))
      (mdone.flatMap (fun x => x.outgoing_link_list)) s) :
    MemSt p q net.node_dict net.link_dict net.max_node_id done
      (idsOf mem) newId (mdone ++ [nd])
      ((mdone ++ [nd]).flatMap (fun x => x.incoming_link_list))
      ((mdone ++ [nd]).flatMap (fun x => x.outgoing_link_list))
      (processMember (idsOf mem) newId s nd) := by
  obtain ⟨w1, w2, w3, w4, w5, w6, w7, w8, w9, w10⟩ := hwf
  have hnd_mem : nd ∈ mem := by
    rw [hsplit]
    exact List.mem_append_right _ (List.mem_cons_self _ _)
  have hnd_entry := hmem_entry nd hnd_mem
  have hndid_mem : nd.node_id ∈ idsOf mem :=
    List.mem_map.mpr ⟨nd, hnd_mem, rfl⟩
  have hnotin_mdone : nd.node_id ∉ idsOf mdone := by
    have h2 : (idsOf mdone ++ nd.node_id :: idsOf mrest).Nodup := by
      have : idsOf mem = idsOf mdone ++ nd.node_id :: idsOf mrest := by
        rw [hsplit]
        simp [idsOf]
      rw [← this]
      exact hids_nodup
    have h3 := (List.nodup_middle.mp h2)
    exact fun hc => (List.nodup_cons.mp h3).1 (List.mem_append_left _ hc)
  have hmdone_sub : ∀ x ∈ mdone, x ∈ mem := by
    intro x hx
    rw [hsplit]
    exact List.mem_append_left _ hx
  have hInc : ∀ a ∈ nd.incoming_link_list,
      ∃ l, dictLookup net.link_dict a = some l ∧
        l.to_node = nd.node_id := by
    intro a ha
    have h6 := w6 (nd.node_id, nd) hnd_entry a ha
    unfold linkToIs at h6
    cases hl : dictLookup net.link_dict a with
    | none => rw [hl] at h6; simp at h6
    | some l =>
        rw [hl] at h6
        exact ⟨l, rfl, by simpa using h6⟩
  have hOut : ∀ a ∈ nd.outgoing_link_list,
      ∃ l, dictLookup net.link_dict a = some l ∧
        l.from_node = nd.node_id := by
    intro a ha
    have h7 := w7 (nd.node_id, nd) hnd_entry a ha
    unfold linkFromIs at h7
    cases hl : dictLookup net.link_dict a with
    | none => rw [hl] at h7; simp at h7
    | some l =>
        rw [hl] at h7
        exact ⟨l, rfl, by simpa using h7⟩
  have hpreIn1 : ∀ a ∈ nd.incoming_link_list,
      ∃ l, dictLookup net.link_dict a = some l ∧
        l.to_node ∈ idsOf mem := by
    intro a ha
    rcases hInc a ha with ⟨l, hl, hto⟩
    exact ⟨l, hl, hto ▸ hndid_mem⟩
  have hpreIn2 : ∀ a ∈ nd.incoming_link_list,
      a ∉ mdone.flatMap (fun x => x.incoming_link_list) := by
    intro a ha hmem'
    rcases List.mem_flatMap.mp hmem' with ⟨nd', hnd', ha'⟩
    have h6' := w6 (nd'.node_id, nd') (hmem_entry nd' (hmdone_sub nd' hnd'))
      a ha'
    unfold linkToIs at h6'
    rcases hInc a ha with ⟨l, hl, hto⟩
    rw [hl] at h6'
    have : l.to_node = nd'.node_id := by simpa using h6'
    apply hnotin_mdone
    rw [← hto, this]
    exact List.mem_map.mpr ⟨nd', hnd', rfl⟩
  have hpreOut1 : ∀ a ∈ nd.outgoing_link_list,
      ∃ l, dictLookup net.link_dict a = some l ∧
        l.from_node ∈ idsOf mem := by
    intro a ha
    rcases hOut a ha with ⟨l, hl, hfrom⟩
    exact ⟨l, hl, hfrom ▸ hndid_mem⟩
  have hpreOut2 : ∀ a ∈ nd.outgoing_link_list,
      a ∉ mdone.flatMap (fun x => x.outgoing_link_list) := by
    intro a ha hmem'
    rcases List.mem_flatMap.mp hmem' with ⟨nd', hnd', ha'⟩
    have h7' := w7 (nd'.node_id, nd') (hmem_entry nd' (hmdone_sub nd' hnd'))
      a ha'
    unfold linkFromIs at h7'
    rcases hOut a ha with ⟨l, hl, hfrom⟩
    rw [hl] at h7'
    have : l.from_node = nd'.node_id := by simpa using h7'
    apply hnotin_mdone
    rw [← hfrom, this]
    exact List.mem_map.mpr ⟨nd', hnd', rfl⟩
  have hIncNodup : nd.incoming_link_list.Nodup :=
    (w5 (nd.node_id, nd) hnd_entry).1
  have hOutNodup : nd.outgoing_link_list.Nodup :=
    (w5 (nd.node_id, nd) hnd_entry).2
  have hmemlt : ∀ a ∈ idsOf mem, a < net.max_node_id := hids_lt
  -- the three stages of processMember
  have hIn := procIn_fold net.link_dict net.max_node_id done (idsOf mem)
    newId w3 hmemlt hdisj nd.incoming_link_list
    (mdone.flatMap (fun x => x.incoming_link_list))
    (mdone.flatMap (fun x => x.outgoing_link_list))
    ({ s.1 with removal_node_set := insert nd.node_id s.1.removal_node_set },
     { s.2 with
        osm_ids := s.2.osm_ids ++ [nd.osm_node_id],
        x_sum := s.2.x_sum + nd.x,
        y_sum := s.2.y_sum + nd.y,
        xy_x_sum := s.2.xy_x_sum + nd.xy_x,
        xy_y_sum := s.2.xy_y_sum + nd.xy_y })
    hpreIn1 hpreIn2 hIncNodup hst.links_eq hst.reml hst.in_eq
  have hInFrame := foldl_procIn_frame (idsOf mem) newId
    nd.incoming_link_list
    ({ s.1 with removal_node_set := insert nd.node_id s.1.removal_node_set },
     { s.2 with
        osm_ids := s.2.osm_ids ++ [nd.osm_node_id],
        x_sum := s.2.x_sum + nd.x,
        y_sum := s.2.y_sum + nd.y,
        xy_x_sum := s.2.xy_x_sum + nd.xy_x,
        xy_y_sum := s.2.xy_y_sum + nd.xy_y })
  have hOutF := procOut_fold net.link_dict net.max_node_id done (idsOf mem)
    newId w3 hmemlt hdisj nd.outgoing_link_list
    (mdone.flatMap (fun x => x.incoming_link_list)
      ++ nd.incoming_link_list)
    (mdone.flatMap (fun x => x.outgoing_link_list))
    (nd.incoming_link_list.foldl (procIn (idsOf mem) newId)
      ({ s.1 with
          removal_node_set := insert nd.node_id s.1.removal_node_set },
       { s.2 with
          osm_ids := s.2.osm_ids ++ [nd.osm_node_id],
          x_sum := s.2.x_sum + nd.x,
          y_sum := s.2.y_sum + nd.y,
          xy_x_sum := s.2.xy_x_sum + nd.xy_x,
          xy_y_sum := s.2.xy_y_sum + nd.xy_y }))
    hpreOut1 hpreOut2 hOutNodup hIn.1 hIn.2.1
    (by
      rw [hInFrame.2.2.2.2.2.2.2.2.1]
      exact hst.out_eq)
  have hOutFrame := foldl_procOut_frame (idsOf mem) newId
    nd.outgoing_link_list
    (nd.incoming_link_list.foldl (procIn (idsOf mem) newId)
      ({ s.1 with
          removal_node_set := insert nd.node_id s.1.removal_node_set },
       { s.2 with
          osm_ids := s.2.osm_ids ++ [nd.osm_node_id],
          x_sum := s.2.x_sum + nd.x,
          y_sum := s.2.y_sum + nd.y,
          xy_x_sum := s.2.xy_x_sum + nd.xy_x,
          xy_y_sum := s.2.xy_y_sum + nd.xy_y }))
  have e1 : (mdone ++ [nd]).flatMap (fun x => x.incoming_link_list)
      = mdone.flatMap (fun x => x.incoming_link_list)
        ++ nd.incoming_link_list := by
    simp
  have e2 : (mdone ++ [nd]).flatMap (fun x => x.outgoing_link_list)
      = mdone.flatMap (fun x => x.outgoing_link_list)
        ++ nd.outgoing_link_list := by
    simp
  refine ⟨?_, ?_, ?_, ?_, ?_, ?_, ?_, ?_, ?_, ?_, ?_, ?_, ?_⟩
  · rw [show (processMember (idsOf mem) newId s nd).1.node_dict
        = _ from hOutFrame.1, hInFrame.1]
    exact hst.nodes_eq
  · rw [show (processMember (idsOf mem) newId s nd).1.max_node_id
        = _ from hOutFrame.2.1, hInFrame.2.1]
    exact hst.max_eq
  · intro a
    rw [show (processMember (idsOf mem) newId s nd).1.removal_node_set
        = _ from hOutFrame.2.2.1, hInFrame.2.2.1]
    show a ∈ insert nd.node_id s.1.removal_node_set ↔ _
    rw [Finset.mem_insert, hst.remn a]
    constructor
    · rintro (h | h | h)
      · right
        rw [h]
        simp [idsOf]
      · exact Or.inl h
      · right
        simp [idsOf] at h ⊢
        exact Or.inl h
    · rintro (h | h)
      · exact Or.inr (Or.inl h)
      · simp only [idsOf, List.map_append, List.mem_append] at h
        rcases h with h | h
        · exact Or.inr (Or.inr (by simpa [idsOf] using h))
        · left
          simpa using h
  · intro a
    rw [e1, e2]
    exact hOutF.2.1 a
  · rw [e1, e2]
    exact hOutF.1
  · rw [show (processMember (idsOf mem) newId s nd).2.osm_ids
        = _ from hOutFrame.2.2.2.1, hInFrame.2.2.2.1]
    show s.2.osm_ids ++ [nd.osm_node_id] = _
    rw [hst.osm_eq]
    simp
  · rw [show (processMember (idsOf mem) newId s nd).2.x_sum
        = _ from hOutFrame.2.2.2.2.1, hInFrame.2.2.2.2.1]
    show s.2.x_sum + nd.x = _
    rw [hst.x_eq]
    simp
  · rw [show (processMember (idsOf mem) newId s nd).2.y_sum
        = _ from hOutFrame.2.2.2.2.2.1, hInFrame.2.2.2.2.2.1]
    show s.2.y_sum + nd.y = _
    rw [hst.y_eq]
    simp
  · rw [show (processMember (idsOf mem) newId s nd).2.xy_x_sum
        = _ from hOutFrame.2.2.2.2.2.2.1, hInFrame.2.2.2.2.2.2.1]
    show s.2.xy_x_sum + nd.xy_x = _
    rw [hst.xx_eq]
    simp
  · rw [show (processMember (idsOf mem) newId s nd).2.xy_y_sum
        = _ from hOutFrame.2.2.2.2.2.2.2.1, hInFrame.2.2.2.2.2.2.2.1]
    show s.2.xy_y_sum + nd.xy_y = _
    rw [hst.yy_eq]
    simp
  · rw [show (processMember (idsOf mem) newId s nd).2.new_in
        = _ from hOutFrame.2.2.2.2.2.2.2.2.1, e1]
    exact hIn.2.2
  · rw [e2]
    exact hOutF.2.2
  · show nd.osm_highway = _
    unfold lastHighwayOf
    rw [List.getLast?_concat]

theorem processMembers_fold (net : Network) (hwf : net.wf)
    (p q : Nat) (done : List (Nat × List Node)) (mem : List Node)
    (hmem_entry : ∀ x ∈ mem, (x.node_id, x) ∈ net.node_dict)
    (hids_nodup : (idsOf mem).Nodup)
    (hids_lt : ∀ a ∈ idsOf mem, a < net.max_node_id)
    (hdisj : ∀ g ∈ done, 2 ≤ g.2.length →
      ∀ a ∈ idsOf g.2, a ∉ idsOf mem)
    (newId : Nat) :
    ∀ (mrest mdone : List Node) (s : ConsState × NewAcc),
    mem = mdone ++ mrest →
    MemSt p q net.node_dict net.link_dict net.max_node_id done
      (idsOf mem) newId mdone
      (mdone.flatMap (fun x => x.incoming_link_list))
      (mdone.flatMap (fun x => x.outgoing_link_list)) s →
    MemSt p q net.node_dict net.link_dict net.max_node_id done
      (idsOf mem) newId mem
      (mem.flatMap (fun x => x.incoming_link_list))
      (mem.flatMap (fun x => x.outgoing_link_list))
      (mrest.foldl (processMember (idsOf mem) newId) s) := by
  intro mrest
  induction mrest with
  | nil =>
      intro mdone s hsplit hst
      rw [List.foldl_nil]
      rw [List.append_nil] at hsplit
      rw [show mdone = mem from hsplit.symm] at hst
      exact hst
  | cons nd t ih =>
      intro mdone s hsplit hst
      rw [List.foldl_cons]
      have hstep := processMember_step net hwf p q done mem mdone t nd
        hsplit hmem_entry hids_nodup hids_lt hdisj newId s hst
      exact ih (mdone ++ [nd]) (processMember (idsOf mem) newId s nd)
        (by rw [hsplit]; simp) hstep

theorem processGroup_big (p q : Nat) (st : ConsState) (g : Nat × List Node)
    (h : ¬ g.2.length < 2) :
    processGroup p q st g =
      { (g.2.foldl (processMember (idsOf g.2) st.max_node_id)
            (st, ⟨[], 0, 0, 0, 0, [], [], none⟩)).1 with
          node_dict := dictSet
            (g.2.foldl (processMember (idsOf g.2) st.max_node_id)
              (st, ⟨[], 0, 0, 0, 0, [], [], none⟩)).1.node_dict
            st.max_node_id
            { node_id := st.max_node_id
              osm_node_id := String.intercalate "_"
                (g.2.foldl
                  (processMember (idsOf g.2) st.max_node_id)
                  (st, ⟨[], 0, 0, 0, 0, [], [], none⟩)).2.osm_ids
              main_node_id := some g.1
              ctrl_type :=
                if g.2.any (fun nd => nd.ctrl_type = some "signal") then
                  some "signal"
                else none
              x := pyRound p
                ((g.2.foldl
                  (processMember (idsOf g.2) st.max_node_id)
                  (st, ⟨[], 0, 0, 0, 0, [], [], none⟩)).2.x_sum / g.2.length)
              y := pyRound p
                ((g.2.foldl
                  (processMember (idsOf g.2) st.max_node_id)
                  (st, ⟨[], 0, 0, 0, 0, [], [], none⟩)).2.y_sum / g.2.length)
              xy_x := pyRound q
                ((g.2.foldl
                  (processMember (idsOf g.2) st.max_node_id)
                  (st, ⟨[], 0, 0, 0, 0, [], [], none⟩)).2.xy_x_sum
                  / g.2.length)
              xy_y := pyRound q
                ((g.2.foldl
                  (processMember (idsOf g.2) st.max_node_id)
                  (st, ⟨[], 0, 0, 0, 0, [], [], none⟩)).2.xy_y_sum
                  / g.2.length)
              incoming_link_list :=
                (g.2.foldl
                  (processMember (idsOf g.2) st.max_node_id)
                  (st, ⟨[], 0, 0, 0, 0, [], [], none⟩)).2.new_in
              outgoing_link_list :=
                (g.2.foldl
                  (processMember (idsOf g.2) st.max_node_id)
                  (st, ⟨[], 0, 0, 0, 0, [], [], none⟩)).2.new_out
              osm_highway :=
                (g.2.foldl
                  (processMember (idsOf g.2) st.max_node_id)
                  (st, ⟨[], 0, 0, 0, 0, [], [], none⟩)).2.highway },
          max_node_id := st.max_node_id + 1 } := by
  unfold processGroup
  rw [if_neg h]
  rfl

theorem epAfter_append_small (base e partner : Nat)
    (done : List (Nat × List Node)) (g : Nat × List Node)
    (h : ¬ 2 ≤ g.2.length) :
    epAfter base (done ++ [g]) e partner
      = epAfter base done e partner := by
  by_cases hhit : ∃ h' ∈ done, 2 ≤ h'.2.length ∧ e ∈ idsOf h'.2 ∧
      partner ∉ idsOf h'.2
  · exact epAfter_append_of_hit done [g] base e partner hhit
  · have hno : ∀ g' ∈ done, 2 ≤ g'.2.length →
        ¬ (e ∈ idsOf g'.2 ∧ partner ∉ idsOf g'.2) := by
      intro g' hg' hb hc
      exact hhit ⟨g', hg', hb, hc.1, hc.2⟩
    rw [epAfter_append_of_no_hit done [g] base e partner hno,
      epAfter_of_no_hit done base e partner hno]
    simp [epAfter, h]

theorem epAfter_append_big (base e partner : Nat)
    (done : List (Nat × List Node)) (g : Nat × List Node)
    (hbig : 2 ≤ g.2.length)
    (hdisjmem : ∀ h ∈ done, 2 ≤ h.2.length →
      ∀ a ∈ idsOf h.2, a ∉ idsOf g.2) :
    epAfter base (done ++ [g]) e partner =
      if e ∈ idsOf g.2 ∧ partner ∉ idsOf g.2 then base + bigCount done
      else epAfter base done e partner := by
  by_cases he : e ∈ idsOf g.2
  · have hno : ∀ g' ∈ done, 2 ≤ g'.2.length →
        ¬ (e ∈ idsOf g'.2 ∧ partner ∉ idsOf g'.2) := by
      intro g' hg' hb hc
      exact (hdisjmem g' hg' hb e hc.1) he
    rw [epAfter_append_of_no_hit done [g] base e partner hno]
    by_cases hp : partner ∉ idsOf g.2
    · rw [if_pos ⟨he, hp⟩]
      simp [epAfter, hbig, he, hp]
    · rw [if_neg (fun hc => hp hc.2)]
      rw [epAfter_of_no_hit done base e partner hno]
      simp [epAfter, hbig, hp]
  · rw [if_neg (fun hc => he hc.1)]
    by_cases hhit : ∃ h' ∈ done, 2 ≤ h'.2.length ∧ e ∈ idsOf h'.2 ∧
        partner ∉ idsOf h'.2
    · exact epAfter_append_of_hit done [g] base e partner hhit
    · have hno : ∀ g' ∈ done, 2 ≤ g'.2.length →
          ¬ (e ∈ idsOf g'.2 ∧ partner ∉ idsOf g'.2) := by
        intro g' hg' hb hc
        exact hhit ⟨g', hg', hb, hc.1, hc.2⟩
      rw [epAfter_append_of_no_hit done [g] base e partner hno,
        epAfter_of_no_hit done base e partner hno]
      simp [epAfter, hbig, he]

theorem processGroup_inv (net : Network) (hwf : net.wf) (p q : Nat)
    (done rest : List (Nat × List Node)) (g : Nat × List Node)
    (hok : GroupsOK net.node_dict net.max_node_id (done ++ g :: rest))
    (st : ConsState)
    (hinv : ConsInv p q net.node_dict net.link_dict net.max_node_id done
      st) :
    ConsInv p q net.node_dict net.link_dict net.max_node_id (done ++ [g])
      (processGroup p q st g) := by
  by_cases hsmall : g.2.length < 2
  · rw [processGroup_skip p q st g hsmall]
    have hns : ¬ 2 ≤ g.2.length := by omega
    refine ⟨?_, ?_, ?_, ?_, ?_⟩
    · rw [hinv.nodes_eq, replList_append]
      have hz : replList p q net.link_dict
          (net.max_node_id + bigCount done) [g] = [] := by
        rw [replList, if_neg hns]
        rfl
      rw [hz, List.append_nil]
    · rw [hinv.max_eq, bigCount_append]
      have hz : bigCount [g] = 0 := by simp [bigCount, hns]
      rw [hz]
      omega
    · intro a
      rw [hinv.remn a]
      constructor
      · rintro ⟨h, hh, hb, ha⟩
        exact ⟨h, List.mem_append_left _ hh, hb, ha⟩
      · rintro ⟨h, hh, hb, ha⟩
        rcases List.mem_append.mp hh with h1 | h2
        · exact ⟨h, h1, hb, ha⟩
        · exact absurd hb (by rw [List.mem_singleton.mp h2]; exact hns)
    · intro a
      rw [hinv.reml a]
      constructor
      · rintro ⟨h, hh, hb, l, hl, hf, ht⟩
        exact ⟨h, List.mem_append_left _ hh, hb, l, hl, hf, ht⟩
      · rintro ⟨h, hh, hb, l, hl, hf, ht⟩
        rcases List.mem_append.mp hh with h1 | h2
        · exact ⟨h, h1, hb, l, hl, hf, ht⟩
        · exact absurd hb (by rw [List.mem_singleton.mp h2]; exact hns)
    · rw [hinv.links_eq]
      apply mapEntries_congr
      intro pr _
      rw [epAfter_append_small _ _ _ _ _ hns,
        epAfter_append_small _ _ _ _ _ hns]
  · have hbig : 2 ≤ g.2.length := by omega
    obtain ⟨w1, w2, w3, w4, w5, w6, w7, w8, w9, w10⟩ := id hwf
    have hgmem : g ∈ done ++ g :: rest :=
      List.mem_append_right _ (List.mem_cons_self _ _)
    have hmem_entry : ∀ x ∈ g.2, (x.node_id, x) ∈ net.node_dict :=
      fun x hx => hok.mem_entry g hgmem x hx
    have hids_nodup := hok.ids_nodup g hgmem
    have hids_lt : ∀ a ∈ idsOf g.2, a < net.max_node_id := by
      intro a ha
      rcases List.mem_map.mp ha with ⟨nd, hnd, hid⟩
      rw [← hid]
      exact hok.ids_lt g hgmem nd hnd
    have hgnotdone : g.1 ∉ done.map Prod.fst := by
      have hkeys := hok.keys_nodup
      rw [List.map_append, List.map_cons, List.nodup_middle] at hkeys
      intro hmem
      exact (List.nodup_cons.mp hkeys).1 (List.mem_append_left _ hmem)
    have hdisj : ∀ h ∈ done, 2 ≤ h.2.length →
        ∀ a ∈ idsOf h.2, a ∉ idsOf g.2 := by
      intro h hh _ a ha
      have hne : h.1 ≠ g.1 := by
        intro he
        exact hgnotdone (he ▸ List.mem_map.mpr ⟨h, hh, rfl⟩)
      exact GroupsOK.disjoint hok w1 h (List.mem_append_left _ hh) g hgmem
        hne a ha
    have hcorrIn : ∀ (b : Nat) (l : Link),
        dictLookup net.link_dict b = some l →
        (b ∈ g.2.flatMap (fun x => x.incoming_link_list)
          ↔ l.to_node ∈ idsOf g.2) :=
      fun b l hb => mem_flatMap_incoming_iff net hwf g.2 hmem_entry b l hb
    have hcorrOut : ∀ (b : Nat) (l : Link),
        dictLookup net.link_dict b = some l →
        (b ∈ g.2.flatMap (fun x => x.outgoing_link_list)
          ↔ l.from_node ∈ idsOf g.2) :=
      fun b l hb => mem_flatMap_outgoing_iff net hwf g.2 hmem_entry b l hb
    have hinit : MemSt p q net.node_dict net.link_dict net.max_node_id done
        (idsOf g.2) st.max_node_id [] [] []
        (st, ⟨[], 0, 0, 0, 0, [], [], none⟩) := by
      refine ⟨hinv.nodes_eq, hinv.max_eq, ?_, ?_, ?_, rfl, rfl, rfl, rfl,
        rfl, rfl, rfl, rfl⟩
      · intro a
        rw [hinv.remn a]
        simp [idsOf]
      · intro a
        rw [hinv.reml a]
        unfold remlF
        simp
      · rw [hinv.links_eq]
        apply mapEntries_congr
        intro pr _
        simp [linkF]
    have hres := processMembers_fold net hwf p q done g.2 hmem_entry
      hids_nodup hids_lt hdisj st.max_node_id g.2 []
      (st, ⟨[], 0, 0, 0, 0, [], [], none⟩) rfl hinit
    rw [processGroup_big p q st g (by omega)]
    set res := g.2.foldl (processMember (idsOf g.2) st.max_node_id)
      (st, (⟨[], 0, 0, 0, 0, [], [], none⟩ : NewAcc)) with hresdef
    refine ⟨?_, ?_, ?_, ?_, ?_⟩
    · show dictSet res.1.node_dict st.max_node_id _ = _
      rw [hres.nodes_eq]
      have hfresh : st.max_node_id ∉ ((net.node_dict
          ++ replList p q net.link_dict net.max_node_id done).map
            Prod.fst) := by
        intro hmem
        rw [List.map_append, List.mem_append] at hmem
        rcases hmem with h1 | h2
        · rcases List.mem_map.mp h1 with ⟨pr, hpr, hpr2⟩
          have hlt := w10 pr hpr
          rw [hinv.max_eq] at hpr2
          omega
        · rcases List.mem_map.mp h2 with ⟨pr, hpr, hpr2⟩
          have hrange := replList_keys_range p q net.link_dict done
            net.max_node_id pr hpr
          rw [hinv.max_eq] at hpr2
          omega
      rw [dictSet_of_not_mem _ hfresh,
        replList_append p q net.link_dict done [g] net.max_node_id]
      have hsing : replList p q net.link_dict
          (net.max_node_id + bigCount done) [g]
          = [(net.max_node_id + bigCount done,
              replNode p q net.link_dict g
                (net.max_node_id + bigCount done))] := by
        rw [replList, if_pos hbig]
        rfl
      rw [hsing, ← List.append_assoc, ← hinv.max_eq]
      rw [hres.osm_eq, hres.x_eq, hres.y_eq, hres.xx_eq, hres.yy_eq,
        hres.in_eq, hres.out_eq, hres.hw_eq,
        List.filter_flatMap, List.filter_flatMap]
      rfl
    · show st.max_node_id + 1 = _
      rw [bigCount_append, hinv.max_eq]
      have hone : bigCount [g] = 1 := by simp [bigCount, hbig]
      rw [hone]
      omega
    · intro a
      show a ∈ res.1.removal_node_set ↔ _
      rw [hres.remn a]
      constructor
      · rintro (⟨h, hh, hb, ha⟩ | ha)
        · exact ⟨h, List.mem_append_left _ hh, hb, ha⟩
        · exact ⟨g, List.mem_append_right _ (List.mem_singleton_self _),
            hbig, ha⟩
      · rintro ⟨h, hh, hb, ha⟩
        rcases List.mem_append.mp hh with h1 | h2
        · exact Or.inl ⟨h, h1, hb, ha⟩
        · rw [List.mem_singleton.mp h2] at ha
          exact Or.inr ha
    · intro a
      show a ∈ res.1.removal_link_set ↔ _
      rw [hres.reml a]
      unfold remlF
      constructor
      · rintro (⟨h, hh, hb, l, hl, hf, ht⟩ | ⟨l, hl, hf, ht, hio⟩)
        · exact ⟨h, List.mem_append_left _ hh, hb, l, hl, hf, ht⟩
        · exact ⟨g, List.mem_append_right _ (List.mem_singleton_self _),
            hbig, l, hl, hf, ht⟩
      · rintro ⟨h, hh, hb, l, hl, hf, ht⟩
        rcases List.mem_append.mp hh with h1 | h2
        · exact Or.inl ⟨h, h1, hb, l, hl, hf, ht⟩
        · rw [List.mem_singleton.mp h2] at hf ht
          refine Or.inr ⟨l, hl, hf, ht, ?_⟩
          exact Or.inr ((hcorrOut a l hl).mpr hf)
    · show res.1.link_dict = _
      rw [hres.links_eq]
      apply mapEntries_congr
      intro pr hpr
      have hlook : dictLookup net.link_dict pr.1 = some pr.2 :=
        dictLookup_eq_some_of_mem w3 hpr
      have hfIff := hcorrOut pr.1 pr.2 hlook
      have htIff := hcorrIn pr.1 pr.2 hlook
      simp only [linkF]
      have e_from : (if pr.1 ∈ g.2.flatMap (fun x => x.outgoing_link_list)
            ∧ pr.2.to_node ∉ idsOf g.2 then st.max_node_id
          else epAfter net.max_node_id done pr.2.from_node pr.2.to_node)
          = epAfter net.max_node_id (done ++ [g]) pr.2.from_node
              pr.2.to_node := by
        rw [epAfter_append_big net.max_node_id pr.2.from_node pr.2.to_node
          done g hbig hdisj]
        by_cases hc : pr.2.from_node ∈ idsOf g.2
            ∧ pr.2.to_node ∉ idsOf g.2
        · rw [if_pos hc, if_pos ⟨hfIff.mpr hc.1, hc.2⟩]
          exact hinv.max_eq
        · rw [if_neg hc, if_neg (fun hcc => hc ⟨hfIff.mp hcc.1, hcc.2⟩)]
      have e_to : (if pr.1 ∈ g.2.flatMap (fun x => x.incoming_link_list)
            ∧ pr.2.from_node ∉ idsOf g.2 then st.max_node_id
          else epAfter net.max_node_id done pr.2.to_node pr.2.from_node)
          = epAfter net.max_node_id (done ++ [g]) pr.2.to_node
              pr.2.from_node := by
        rw [epAfter_append_big net.max_node_id pr.2.to_node pr.2.from_node
          done g hbig hdisj]
        by_cases hc : pr.2.to_node ∈ idsOf g.2
            ∧ pr.2.from_node ∉ idsOf g.2
        · rw [if_pos hc, if_pos ⟨htIff.mpr hc.1, hc.2⟩]
          exact hinv.max_eq
        · rw [if_neg hc, if_neg (fun hcc => hc ⟨htIff.mp hcc.1, hcc.2⟩)]
      rw [e_from, e_to]

theorem dictLookup_filter {α : Type} (S : Finset Nat) (b : Nat)
    (d : List (Nat × α)) :
    dictLookup (d.filter (fun pr => pr.1 ∉ S)) b
      = if b ∈ S then none else dictLookup d b := by
  induction d with
  | nil => by_cases hb : b ∈ S <;> simp [dictLookup, hb]
  | cons pr rest ih =>
      by_cases hp : pr.1 ∈ S
      · rw [List.filter_cons_of_neg (by simpa using hp), ih]
        by_cases hb : b ∈ S
        · simp [hb]
        · have hne : ¬ pr.1 = b := fun he => hb (he ▸ hp)
          simp [hb, dictLookup, hne]
      · rw [List.filter_cons_of_pos (by simpa using hp)]
        by_cases hpb : pr.1 = b
        · have hb : b ∉ S := hpb ▸ hp
          simp [hb, dictLookup, hpb]
        · simp only [dictLookup, if_neg hpb]
          exact ih

theorem mem_eq_of_keys_nodup {α : Type} {d : List (Nat × α)}
    (hnd : (d.map Prod.fst).Nodup) {k : Nat} {x y : α}
    (hx : (k, x) ∈ d) (hy : (k, y) ∈ d) : x = y := by
  have h1 := dictLookup_eq_some_of_mem hnd hx
  have h2 := dictLookup_eq_some_of_mem hnd hy
  rw [h1] at h2
  exact Option.some.inj h2

theorem replList_keys_nodup (p q : Nat) (links : List (Nat × Link)) :
    ∀ (done : List (Nat × List Node)) (base : Nat),
    ((replList p q links base done).map Prod.fst).Nodup := by
  intro done
  induction done with
  | nil => intro base; simp [replList]
  | cons g rest ih =>
      intro base
      by_cases hg : 2 ≤ g.2.length
      · rw [replList, if_pos hg]
        simp only [List.map_cons, List.nodup_cons]
        refine ⟨?_, ih (base + 1)⟩
        intro hmem
        rcases List.mem_map.mp hmem with ⟨pr, hpr, hpr2⟩
        have := replList_keys_range p q links rest (base + 1) pr hpr
        omega
      · rw [replList, if_neg hg]
        exact ih base

theorem epAfter_hit (base e partner : Nat)
    (pre post : List (Nat × List Node)) (g : Nat × List Node)
    (hbig : 2 ≤ g.2.length) (he : e ∈ idsOf g.2) (hp : partner ∉ idsOf g.2)
    (hnohit : ∀ h ∈ pre, 2 ≤ h.2.length →
      ¬ (e ∈ idsOf h.2 ∧ partner ∉ idsOf h.2)) :
    epAfter base (pre ++ g :: post) e partner = base + bigCount pre := by
  rw [epAfter_append_of_no_hit pre (g :: post) base e partner hnohit]
  simp [epAfter, hbig, he, hp]

theorem GroupsOK.perm {nodes : List (Nat × Node)} {max₀ : Nat}
    {gl gl' : List (Nat × List Node)} (hok : GroupsOK nodes max₀ gl')
    (hperm : gl.Perm gl') : GroupsOK nodes max₀ gl := by
  refine ⟨?_, ?_, ?_, ?_, ?_⟩
  · intro g hg
    exact hok.mem_entry g (hperm.mem_iff.mp hg)
  · intro g hg
    exact hok.mem_main g (hperm.mem_iff.mp hg)
  · exact ((hperm.map Prod.fst).nodup_iff).mpr hok.keys_nodup
  · intro g hg
    exact hok.ids_nodup g (hperm.mem_iff.mp hg)
  · intro g hg
    exact hok.ids_lt g (hperm.mem_iff.mp hg)

theorem group_split_no_hit (nodes : List (Nat × Node)) (max₀ : Nat)
    {gl pre post : List (Nat × List Node)} {g : Nat × List Node}
    (hok : GroupsOK nodes max₀ gl) (hkeys : (nodes.map Prod.fst).Nodup)
    (hsplit : gl = pre ++ g :: post) (e partner : Nat)
    (he : e ∈ idsOf g.2) :
    ∀ h ∈ pre, 2 ≤ h.2.length →
      ¬ (e ∈ idsOf h.2 ∧ partner ∉ idsOf h.2) := by
  intro h hh _ hc
  have hkn := hok.keys_nodup
  rw [hsplit, List.map_append, List.map_cons, List.nodup_middle] at hkn
  have hgp : g.1 ∉ pre.map Prod.fst ++ post.map Prod.fst :=
    (List.nodup_cons.mp hkn).1
  have hne : h.1 ≠ g.1 := by
    intro heq
    exact hgp
      (List.mem_append_left _ (heq ▸ List.mem_map.mpr ⟨h, hh, rfl⟩))
  have hgmem : g ∈ gl := by
    rw [hsplit]
    exact List.mem_append_right _ (List.mem_cons_self _ _)
  have hhmem : h ∈ gl := by
    rw [hsplit]
    exact List.mem_append_left _ hh
  exact (GroupsOK.disjoint hok hkeys h hhmem g hgmem hne e hc.1) he

theorem consolidateGroups_inv (net : Network) (hwf : net.wf) (p q : Nat)
    (glist : List (Nat × List Node))
    (hok : GroupsOK net.node_dict net.max_node_id glist) :
    ConsInv p q net.node_dict net.link_dict net.max_node_id glist
      (glist.foldl (processGroup p q)
        ⟨net.node_dict, net.link_dict, net.max_node_id, ∅, ∅⟩) := by
  have hmain : ∀ (rest done : List (Nat × List Node)) (st : ConsState),
      GroupsOK net.node_dict net.max_node_id (done ++ rest) →
      ConsInv p q net.node_dict net.link_dict net.max_node_id done st →
      ConsInv p q net.node_dict net.link_dict net.max_node_id
        (done ++ rest) (rest.foldl (processGroup p q) st) := by
    intro rest
    induction rest with
    | nil =>
        intro done st hok2 hinv
        rw [List.foldl_nil, List.append_nil]
        exact hinv
    | cons g t ih =>
        intro done st hok2 hinv
        rw [List.foldl_cons]
        have he : (done ++ [g]) ++ t = done ++ g :: t := by simp
        have hstep := processGroup_inv net hwf p q done t g hok2 st hinv
        have hrec := ih (done ++ [g]) (processGroup p q st g)
          (by rw [he]; exact hok2) hstep
        rw [← he]
        exact hrec
  have hinv0 : ConsInv p q net.node_dict net.link_dict net.max_node_id []
      ⟨net.node_dict, net.link_dict, net.max_node_id, ∅, ∅⟩ := by
    refine ⟨?_, ?_, ?_, ?_, ?_⟩
    · simp [replList]
    · simp [bigCount]
    · intro a
      simp
    · intro a
      simp
    · exact (List.map_id' net.link_dict).symm
  exact hmain glist [] _ hok hinv0

theorem consolidate_link_lookup (net : Network) (hwf : net.wf) (p q : Nat)
    (glist : List (Nat × List Node))
    (hok : GroupsOK net.node_dict net.max_node_id glist)
    (b : Nat) (l : Link) (hb : dictLookup net.link_dict b = some l)
    (hext : ¬ ∃ g ∈ glist, 2 ≤ g.2.length ∧ l.from_node ∈ idsOf g.2 ∧
      l.to_node ∈ idsOf g.2) :
    dictLookup (consolidateGroups p q glist net).link_dict b
      = some { l with
          from_node := epAfter net.max_node_id glist l.from_node l.to_node,
          to_node := epAfter net.max_node_id glist l.to_node l.from_node }
    := by
  have hinv := consolidateGroups_inv net hwf p q glist hok
  rw [consolidateGroups_apply]
  set st := glist.foldl (processGroup p q)
    ⟨net.node_dict, net.link_dict, net.max_node_id, ∅, ∅⟩ with hst
  show dictLookup (st.link_dict.filter
    (fun pr => pr.1 ∉ st.removal_link_set)) b = _
  rw [dictLookup_filter]
  have hnot : b ∉ st.removal_link_set := by
    intro hmem
    rcases (hinv.reml b).mp hmem with ⟨g, hg, hbg, l', hl', hf, ht⟩
    rw [hb] at hl'
    obtain rfl := Option.some.inj hl'
    exact hext ⟨g, hg, hbg, hf, ht⟩
  rw [if_neg hnot, hinv.links_eq, dictLookup_mapEntries, hb]
  rfl

theorem consolidate_link_removed (net : Network) (hwf : net.wf)
    (p q : Nat) (glist : List (Nat × List Node))
    (hok : GroupsOK net.node_dict net.max_node_id glist)
    (b : Nat) (l : Link) (hb : dictLookup net.link_dict b = some l)
    (hintra : ∃ g ∈ glist, 2 ≤ g.2.length ∧ l.from_node ∈ idsOf g.2 ∧
      l.to_node ∈ idsOf g.2) :
    dictLookup (consolidateGroups p q glist net).link_dict b = none := by
  have hinv := consolidateGroups_inv net hwf p q glist hok
  rw [consolidateGroups_apply]
  set st := glist.foldl (processGroup p q)
    ⟨net.node_dict, net.link_dict, net.max_node_id, ∅, ∅⟩ with hst
  show dictLookup (st.link_dict.filter
    (fun pr => pr.1 ∉ st.removal_link_set)) b = none
  rw [dictLookup_filter]
  have hmem : b ∈ st.removal_link_set := by
    rcases hintra with ⟨g, hg, hbg, hf, ht⟩
    exact (hinv.reml b).mpr ⟨g, hg, hbg, l, hb, hf, ht⟩
  rw [if_pos hmem]

theorem consolidate_repl_lookup (net : Network) (hwf : net.wf)
    (p q : Nat) (pre post : List (Nat × List Node)) (g : Nat × List Node)
    (hok : GroupsOK net.node_dict net.max_node_id (pre ++ g :: post))
    (hbig : 2 ≤ g.2.length) :
    dictLookup (consolidateGroups p q (pre ++ g :: post) net).node_dict
        (net.max_node_id + bigCount pre)
      = some (replNode p q net.link_dict g
          (net.max_node_id + bigCount pre)) := by
  obtain ⟨w1, w2, w3, w4, w5, w6, w7, w8, w9, w10⟩ := id hwf
  have hinv := consolidateGroups_inv net hwf p q (pre ++ g :: post) hok
  rw [consolidateGroups_apply]
  set st := (pre ++ g :: post).foldl (processGroup p q)
    ⟨net.node_dict, net.link_dict, net.max_node_id, ∅, ∅⟩ with hst
  show dictLookup (st.node_dict.filter
    (fun pr => pr.1 ∉ st.removal_node_set)) _ = _
  rw [dictLookup_filter]
  have hnot : net.max_node_id + bigCount pre ∉ st.removal_node_set := by
    intro hmem
    rcases (hinv.remn _).mp hmem with ⟨g', hg', hbg', ha⟩
    rcases List.mem_map.mp ha with ⟨nd, hnd, hid⟩
    have := hok.ids_lt g' hg' nd hnd
    omega
  rw [if_neg hnot, hinv.nodes_eq, dictLookup_append]
  have hnone : dictLookup net.node_dict
      (net.max_node_id + bigCount pre) = none := by
    apply dictLookup_none_of_not_mem
    intro hmem
    rcases List.mem_map.mp hmem with ⟨pr, hpr, hid⟩
    have := w10 pr hpr
    omega
  rw [hnone]
  exact dictLookup_eq_some_of_mem
    (replList_keys_nodup p q net.link_dict (pre ++ g :: post)
      net.max_node_id)
    (replList_mem p q net.link_dict pre post g net.max_node_id hbig)

theorem consolidate_node_lookup (net : Network) (hwf : net.wf)
    (p q : Nat) (glist : List (Nat × List Node))
    (hok : GroupsOK net.node_dict net.max_node_id glist)
    (a : Nat) (nd : Node) (ha : dictLookup net.node_dict a = some nd)
    (hfree : ¬ ∃ g ∈ glist, 2 ≤ g.2.length ∧ a ∈ idsOf g.2) :
    dictLookup (consolidateGroups p q glist net).node_dict a = some nd
    := by
  have hinv := consolidateGroups_inv net hwf p q glist hok
  rw [consolidateGroups_apply]
  set st := glist.foldl (processGroup p q)
    ⟨net.node_dict, net.link_dict, net.max_node_id, ∅, ∅⟩ with hst
  show dictLookup (st.node_dict.filter
    (fun pr => pr.1 ∉ st.removal_node_set)) a = some nd
  rw [dictLookup_filter]
  have hnot : a ∉ st.removal_node_set := by
    intro hmem
    exact hfree ((hinv.remn a).mp hmem)
  rw [if_neg hnot, hinv.nodes_eq, dictLookup_append, ha]

theorem consolidate_link_mem (net : Network) (hwf : net.wf) (p q : Nat)
    (glist : List (Nat × List Node))
    (hok : GroupsOK net.node_dict net.max_node_id glist)
    (b : Nat) (l' : Link)
    (hmem : (b, l') ∈ (consolidateGroups p q glist net).link_dict) :
    ∃ l, dictLookup net.link_dict b = some l ∧
      l' = { l with
        from_node := epAfter net.max_node_id glist l.from_node l.to_node,
        to_node := epAfter net.max_node_id glist l.to_node l.from_node } ∧
      ¬ ∃ g ∈ glist, 2 ≤ g.2.length ∧ l.from_node ∈ idsOf g.2 ∧
        l.to_node ∈ idsOf g.2 := by
  obtain ⟨w1, w2, w3, w4, w5, w6, w7, w8, w9, w10⟩ := id hwf
  have hinv := consolidateGroups_inv net hwf p q glist hok
  rw [consolidateGroups_apply] at hmem
  set st := glist.foldl (processGroup p q)
    ⟨net.node_dict, net.link_dict, net.max_node_id, ∅, ∅⟩ with hst
  have hmem2 : (b, l') ∈ st.link_dict.filter
      (fun pr => pr.1 ∉ st.removal_link_set) := hmem
  rw [List.mem_filter] at hmem2
  obtain ⟨hmem3, hkeep⟩ := hmem2
  have hkeep2 : b ∉ st.removal_link_set := by simpa using hkeep
  rw [hinv.links_eq] at hmem3
  rcases List.mem_map.mp hmem3 with ⟨pr, hpr, heq⟩
  have hkey : pr.1 = b := congrArg Prod.fst heq
  have hval : l' = { pr.2 with
      from_node := epAfter net.max_node_id glist pr.2.from_node
        pr.2.to_node,
      to_node := epAfter net.max_node_id glist pr.2.to_node
        pr.2.from_node } := (congrArg Prod.snd heq).symm
  refine ⟨pr.2, ?_, hval, ?_⟩
  · rw [← hkey]
    exact dictLookup_eq_some_of_mem w3 hpr
  · rintro ⟨g, hg, hbg, hf, ht⟩
    apply hkeep2
    refine (hinv.reml b).mpr ⟨g, hg, hbg, pr.2, ?_, hf, ht⟩
    rw [← hkey]
    exact dictLookup_eq_some_of_mem w3 hpr

theorem no_intra_of_external (nodes : List (Nat × Node)) (max₀ : Nat)
    {gl : List (Nat × List Node)} (hok : GroupsOK nodes max₀ gl)
    (hkeys : (nodes.map Prod.fst).Nodup) {g : Nat × List Node}
    (hg : g ∈ gl) {e partner : Nat} (he : e ∈ idsOf g.2)
    (hp : partner ∉ idsOf g.2) :
    ¬ ∃ g' ∈ gl, 2 ≤ g'.2.length ∧ e ∈ idsOf g'.2 ∧
      partner ∈ idsOf g'.2 := by
  rintro ⟨g', hg', hb', he', hp'⟩
  by_cases hcase : g'.1 = g.1
  · have hgm : (g'.1, g.2) ∈ gl := by
      rw [hcase]
      exact hg
    have h2 : g'.2 = g.2 := mem_eq_of_keys_nodup hok.keys_nodup hg' hgm
    rw [h2] at hp'
    exact hp hp'
  · exact (GroupsOK.disjoint hok hkeys g' hg' g hg hcase e he') he

theorem consolidate_external_endpoint (net : Network) (hwf : net.wf)
    (p q : Nat) (gl : List (Nat × List Node))
    (hok : GroupsOK net.node_dict net.max_node_id gl)
    (g : Nat × List Node) (hg : g ∈ gl) (hbig : 2 ≤ g.2.length)
    (e partner : Nat) (he : e ∈ idsOf g.2) (hp : partner ∉ idsOf g.2) :
    ∃ nd, dictLookup (consolidateGroups p q gl net).node_dict
        (epAfter net.max_node_id gl e partner) = some nd ∧
      nd.main_node_id = some g.1 ∧
      nd.node_id = epAfter net.max_node_id gl e partner := by
  obtain ⟨pre, post, hsplit⟩ := List.append_of_mem hg
  have hnohit := group_split_no_hit net.node_dict net.max_node_id hok
    hwf.1 hsplit e partner he
  have hep : epAfter net.max_node_id gl e partner
      = net.max_node_id + bigCount pre := by
    rw [hsplit]
    exact epAfter_hit net.max_node_id e partner pre post g hbig he hp
      hnohit
  rw [hep]
  refine ⟨replNode p q net.link_dict g (net.max_node_id + bigCount pre),
    ?_, rfl, rfl⟩
  rw [hsplit]
  exact consolidate_repl_lookup net hwf p q pre post g (hsplit ▸ hok) hbig

theorem consolidate_ep_isSome (net : Network) (hwf : net.wf) (p q : Nat)
    (gl : List (Nat × List Node))
    (hok : GroupsOK net.node_dict net.max_node_id gl)
    (e partner : Nat) (hex : (dictLookup net.node_dict e).isSome)
    (hni : ¬ ∃ g ∈ gl, 2 ≤ g.2.length ∧ e ∈ idsOf g.2 ∧
      partner ∈ idsOf g.2) :
    (dictLookup (consolidateGroups p q gl net).node_dict
      (epAfter net.max_node_id gl e partner)).isSome := by
  by_cases hhit : ∃ g ∈ gl, 2 ≤ g.2.length ∧ e ∈ idsOf g.2 ∧
      partner ∉ idsOf g.2
  · obtain ⟨g, hg, hbig, he, hp⟩ := hhit
    obtain ⟨nd, hnd, _, _⟩ := consolidate_external_endpoint net hwf p q gl
      hok g hg hbig e partner he hp
    rw [hnd]
    rfl
  · push_neg at hhit
    have hnofree : ¬ ∃ g ∈ gl, 2 ≤ g.2.length ∧ e ∈ idsOf g.2 := by
      rintro ⟨g, hg, hbg, he⟩
      exact hni ⟨g, hg, hbg, he, hhit g hg hbg he⟩
    have hnh : ∀ g ∈ gl, 2 ≤ g.2.length →
        ¬ (e ∈ idsOf g.2 ∧ partner ∉ idsOf g.2) := by
      intro g hg hbg hc
      exact hnofree ⟨g, hg, hbg, hc.1⟩
    rw [epAfter_of_no_hit gl net.max_node_id e partner hnh]
    obtain ⟨nd, hnd⟩ := Option.isSome_iff_exists.mp hex
    rw [consolidate_node_lookup net hwf p q gl hok e nd hnd hnofree]
    rfl

theorem link_endpoints_exist (net : Network) (hwf : net.wf) (b : Nat)
    (l : Link) (hb : dictLookup net.link_dict b = some l) :
    (dictLookup net.node_dict l.from_node).isSome ∧
    (dictLookup net.node_dict l.to_node).isSome := by
  obtain ⟨w1, w2, w3, w4, w5, w6, w7, w8, w9, w10⟩ := id hwf
  constructor
  · have h9 := w9 (b, l) (dictLookup_mem hb)
    unfold inOutgoingOf at h9
    cases hl : dictLookup net.node_dict l.from_node with
    | none =>
        rw [hl] at h9
        simp at h9
    | some nd => rfl
  · have h8 := w8 (b, l) (dictLookup_mem hb)
    unfold inIncomingOf at h8
    cases hl : dictLookup net.node_dict l.to_node with
    | none =>
        rw [hl] at h8
        simp at h8
    | some nd => rfl

theorem identify_wf (net : Network) (buf : ℚ) (hwf : net.wf) :
    (identifyComplexIntersections net buf).wf := by
  obtain ⟨w1, w2, w3, w4, w5, w6, w7, w8, w9, w10⟩ := hwf
  have hnd := identify_node_dict net buf
  refine ⟨?_, ?_, ?_, ?_, ?_, ?_, ?_, ?_, ?_, ?_⟩
  · rw [hnd, mapEntries_keys]
    exact w1
  · intro pr hpr
    rw [hnd] at hpr
    rcases List.mem_map.mp hpr with ⟨pr0, hpr0, heq⟩
    rw [← heq]
    exact w2 pr0 hpr0
  · exact w3
  · intro pr hpr
    exact w4 pr hpr
  · intro pr hpr
    rw [hnd] at hpr
    rcases List.mem_map.mp hpr with ⟨pr0, hpr0, heq⟩
    rw [← heq]
    exact w5 pr0 hpr0
  · intro pr hpr lid hlid
    rw [hnd] at hpr
    rcases List.mem_map.mp hpr with ⟨pr0, hpr0, heq⟩
    rw [← heq] at hlid ⊢
    exact w6 pr0 hpr0 lid hlid
  · intro pr hpr lid hlid
    rw [hnd] at hpr
    rcases List.mem_map.mp hpr with ⟨pr0, hpr0, heq⟩
    rw [← heq] at hlid ⊢
    exact w7 pr0 hpr0 lid hlid
  · intro pr hpr
    have h8 := w8 pr hpr
    unfold inIncomingOf at h8 ⊢
    rw [hnd, dictLookup_mapEntries]
    cases hl : dictLookup net.node_dict pr.2.to_node with
    | none =>
        rw [hl] at h8
        simp at h8
    | some nd =>
        rw [hl] at h8
        exact h8
  · intro pr hpr
    have h9 := w9 pr hpr
    unfold inOutgoingOf at h9 ⊢
    rw [hnd, dictLookup_mapEntries]
    cases hl : dictLookup net.node_dict pr.2.from_node with
    | none =>
        rw [hl] at h9
        simp at h9
    | some nd =>
        rw [hl] at h9
        exact h9
  · intro pr hpr
    rw [hnd] at hpr
    rcases List.mem_map.mp hpr with ⟨pr0, hpr0, heq⟩
    rw [← heq]
    exact w10 pr0 hpr0

theorem consolidatePhase_eq (p q : Nat) (net : Network) :
    consolidatePhase p q net
      = consolidateGroups p q (buildNodeGroups net.node_dict) net := rfl

/-- C1: for a well-formed network and every group of at least two nodes
sharing one `main_node_id`, consolidation keeps the link keys duplicate
free, deletes every intra-group link (both endpoints members), and keeps
every external link (exactly one endpoint a member): the link is still
found under its key, with the member endpoint rewired to a node of the
final collection carrying the group's id as `main_node_id`. -/
theorem claim_C1_conservation (net : Network) (hwf : net.wf)
    (p q m : Nat) (mem : List Node)
    (hg : (m, mem) ∈ buildNodeGroups net.node_dict)
    (hbig : 2 ≤ mem.length) (b : Nat) (l : Link)
    (hb : dictLookup net.link_dict b = some l) :
    ((consolidatePhase p q net).link_dict.map Prod.fst).Nodup ∧
    (l.from_node ∈ idsOf mem → l.to_node ∈ idsOf mem →
      dictLookup (consolidatePhase p q net).link_dict b = none) ∧
    (l.from_node ∈ idsOf mem → l.to_node ∉ idsOf mem →
      ∃ l' nd,
        dictLookup (consolidatePhase p q net).link_dict b = some l' ∧
        dictLookup (consolidatePhase p q net).node_dict l'.from_node
          = some nd ∧ nd.main_node_id = some m) ∧
    (l.to_node ∈ idsOf mem → l.from_node ∉ idsOf mem →
      ∃ l' nd,
        dictLookup (consolidatePhase p q net).link_dict b = some l' ∧
        dictLookup (consolidatePhase p q net).node_dict l'.to_node
          = some nd ∧ nd.main_node_id = some m) := by
  obtain ⟨w1, w2, w3, w4, w5, w6, w7, w8, w9, w10⟩ := id hwf
  have hok := buildNodeGroups_ok net hwf
  have hinv := consolidateGroups_inv net hwf p q
    (buildNodeGroups net.node_dict) hok
  rw [consolidatePhase_eq]
  refine ⟨?_, ?_, ?_, ?_⟩
  · rw [consolidateGroups_apply]
    set st := (buildNodeGroups net.node_dict).foldl (processGroup p q)
      ⟨net.node_dict, net.link_dict, net.max_node_id, ∅, ∅⟩ with hst
    show ((st.link_dict.filter
      (fun pr => pr.1 ∉ st.removal_link_set)).map Prod.fst).Nodup
    have hkeys : (st.link_dict.map Prod.fst).Nodup := by
      rw [hinv.links_eq, mapEntries_keys]
      exact w3
    exact hkeys.sublist (List.Sublist.map _ (List.filter_sublist _))
  · intro hf ht
    exact consolidate_link_removed net hwf p q _ hok b l hb
      ⟨(m, mem), hg, hbig, hf, ht⟩
  · intro hf ht
    have hext := no_intra_of_external net.node_dict net.max_node_id hok
      w1 hg hf ht
    have hl' := consolidate_link_lookup net hwf p q _ hok b l hb hext
    obtain ⟨nd, hnd, hmain, _⟩ := consolidate_external_endpoint net hwf
      p q _ hok (m, mem) hg hbig l.from_node l.to_node hf ht
    exact ⟨_, nd, hl', hnd, hmain⟩
  · intro ht hf
    have hext : ¬ ∃ g' ∈ buildNodeGroups net.node_dict, 2 ≤ g'.2.length ∧
        l.from_node ∈ idsOf g'.2 ∧ l.to_node ∈ idsOf g'.2 := by
      rintro ⟨g', hg', hb', hf', ht'⟩
      exact no_intra_of_external net.node_dict net.max_node_id hok
        w1 hg ht hf ⟨g', hg', hb', ht', hf'⟩
    have hl' := consolidate_link_lookup net hwf p q _ hok b l hb hext
    obtain ⟨nd, hnd, hmain, _⟩ := consolidate_external_endpoint net hwf
      p q _ hok (m, mem) hg hbig l.to_node l.from_node ht hf
    exact ⟨_, nd, hl', hnd, hmain⟩

/-- C6: a link running from a member of one big group to a member of a
different big group survives consolidation with its source endpoint
rewired to the first group's replacement node and its destination endpoint
rewired to the second group's replacement node, and this holds for every
processing order of the groups (any permutation of the partition). -/
theorem claim_C6_cross_group_rewiring (net : Network) (hwf : net.wf)
    (p q : Nat) (glist : List (Nat × List Node))
    (hperm : glist.Perm (buildNodeGroups net.node_dict))
    (mA : Nat) (memA : List Node) (mB : Nat) (memB : List Node)
    (hA : (mA, memA) ∈ glist) (hB : (mB, memB) ∈ glist) (hAB : mA ≠ mB)
    (hbigA : 2 ≤ memA.length) (hbigB : 2 ≤ memB.length)
    (b : Nat) (l : Link) (hb : dictLookup net.link_dict b = some l)
    (hf : l.from_node ∈ idsOf memA) (ht : l.to_node ∈ idsOf memB) :
    ∃ l' ndA ndB,
      dictLookup (consolidateGroups p q glist net).link_dict b
        = some l' ∧
      dictLookup (consolidateGroups p q glist net).node_dict l'.from_node
        = some ndA ∧ ndA.main_node_id = some mA ∧
      dictLookup (consolidateGroups p q glist net).node_dict l'.to_node
        = some ndB ∧ ndB.main_node_id = some mB := by
  have hok : GroupsOK net.node_dict net.max_node_id glist :=
    (buildNodeGroups_ok net hwf).perm hperm
  have htA : l.to_node ∉ idsOf memA :=
    GroupsOK.disjoint hok hwf.1 (mB, memB) hB (mA, memA) hA
      (Ne.symm hAB) l.to_node ht
  have hfB : l.from_node ∉ idsOf memB :=
    GroupsOK.disjoint hok hwf.1 (mA, memA) hA (mB, memB) hB
      hAB l.from_node hf
  have hext := no_intra_of_external net.node_dict net.max_node_id hok
    hwf.1 hA hf htA
  have hl' := consolidate_link_lookup net hwf p q glist hok b l hb hext
  obtain ⟨ndA, hndA, hmainA, _⟩ := consolidate_external_endpoint net hwf
    p q glist hok (mA, memA) hA hbigA l.from_node l.to_node hf htA
  obtain ⟨ndB, hndB, hmainB, _⟩ := consolidate_external_endpoint net hwf
    p q glist hok (mB, memB) hB hbigB l.to_node l.from_node ht hfB
  exact ⟨_, ndA, ndB, hl', hndA, hmainA, hndB, hmainB⟩

/-- C7: every consolidated group of at least two members produces a node,
present in the final collection, whose geographic coordinate is the
rounded arithmetic mean of the members' coordinates (rounded once, after
summation and division) and whose local projected coordinate is the
analogous mean rounded to the local precision. -/
theorem claim_C7_rounded_mean_coordinates (net : Network) (hwf : net.wf)
    (p q m : Nat) (mem : List Node)
    (hg : (m, mem) ∈ buildNodeGroups net.node_dict)
    (hbig : 2 ≤ mem.length) :
    ∃ nd, dictLookup (consolidatePhase p q net).node_dict nd.node_id
        = some nd ∧
      nd.main_node_id = some m ∧
      nd.x = pyRound p ((mem.map Node.x).sum / mem.length) ∧
      nd.y = pyRound p ((mem.map Node.y).sum / mem.length) ∧
      nd.xy_x = pyRound q ((mem.map Node.xy_x).sum / mem.length) ∧
      nd.xy_y = pyRound q ((mem.map Node.xy_y).sum / mem.length) := by
  have hok := buildNodeGroups_ok net hwf
  rw [consolidatePhase_eq]
  obtain ⟨pre, post, hsplit⟩ := List.append_of_mem hg
  rw [hsplit]
  refine ⟨replNode p q net.link_dict (m, mem)
    (net.max_node_id + bigCount pre), ?_, rfl, rfl, rfl, rfl, rfl⟩
  exact consolidate_repl_lookup net hwf p q pre post (m, mem)
    (hsplit ▸ hok) hbig

/-- C10: the claimed precondition — `max_node_id` merely differs from
every existing node id — is not sufficient for the replacement nodes to
survive; the sufficient precondition is that `max_node_id` exceeds every
node id (part of well-formedness), under which every group of at least
two members keeps its replacement node in the final collection. -/
theorem claim_C10_fresh_counter (net : Network) (hwf : net.wf)
    (p q m : Nat) (mem : List Node)
    (hg : (m, mem) ∈ buildNodeGroups net.node_dict)
    (hbig : 2 ≤ mem.length) :
    ∃ nd, dictLookup (consolidatePhase p q net).node_dict nd.node_id
        = some nd ∧ nd.main_node_id = some m := by
  have hok := buildNodeGroups_ok net hwf
  rw [consolidatePhase_eq]
  obtain ⟨pre, post, hsplit⟩ := List.append_of_mem hg
  rw [hsplit]
  refine ⟨replNode p q net.link_dict (m, mem)
    (net.max_node_id + bigCount pre), ?_, rfl⟩
  exact consolidate_repl_lookup net hwf p q pre post (m, mem)
    (hsplit ▸ hok) hbig

/-- C10, failure of the stated precondition on `exNetTen`: the counter 5
differs from every node id, both groups have two members, yet no node of
the final collection carries the second group's `main_node_id` — the
replacement node minted with id 6 collides with member node 6 and is
deleted by the final removal pass. -/
theorem claim_C10_counterexample :
    (∀ pr ∈ exNetTen.node_dict, pr.1 ≠ exNetTen.max_node_id) ∧
    ∃ g ∈ buildNodeGroups exNetTen.node_dict, 2 ≤ g.2.length ∧
      ∀ pr ∈ (consolidatePhase 7 2 exNetTen).node_dict,
        pr.2.main_node_id ≠ some g.1 := by decide

theorem consolidatePhase_no_dangling (net : Network) (hwf : net.wf)
    (p q : Nat) (b : Nat) (l' : Link)
    (hmem : (b, l') ∈ (consolidatePhase p q net).link_dict) :
    (dictLookup (consolidatePhase p q net).node_dict
      l'.from_node).isSome ∧
    (dictLookup (consolidatePhase p q net).node_dict
      l'.to_node).isSome := by
  have hok := buildNodeGroups_ok net hwf
  rw [consolidatePhase_eq] at hmem ⊢
  obtain ⟨l, hb, hval, hnintra⟩ := consolidate_link_mem net hwf p q _ hok
    b l' hmem
  obtain ⟨hexF, hexT⟩ := link_endpoints_exist net hwf b l hb
  subst hval
  constructor
  · exact consolidate_ep_isSome net hwf p q _ hok l.from_node l.to_node
      hexF hnintra
  · exact consolidate_ep_isSome net hwf p q _ hok l.to_node l.from_node
      hexT (by rintro ⟨g, hg, hbg, ht, hf⟩; exact hnintra ⟨g, hg, hbg, hf, ht⟩)

/-- C4: after `consolidateComplexIntersections` returns on a well-formed
network (with or without the automatic detection pass), every link still
in the link collection has both endpoints present in the node
collection. -/
theorem claim_C4_no_dangling (net : Network) (hwf : net.wf)
    (auto : Bool) (buf : ℚ) (p q : Nat) (b : Nat) (l' : Link)
    (hmem : (b, l') ∈
      (consolidateComplexIntersections net auto buf p q).link_dict) :
    (dictLookup (consolidateComplexIntersections net auto buf p q).node_dict
      l'.from_node).isSome ∧
    (dictLookup (consolidateComplexIntersections net auto buf p q).node_dict
      l'.to_node).isSome := by
  have hwf' : (if auto = true then identifyComplexIntersections net buf
      else net).wf := by
    cases auto
    · exact hwf
    · exact identify_wf net buf hwf
  exact consolidatePhase_no_dangling _ hwf' p q b l' hmem

/-- Witness for C1: in the grouped example chain, the intra-group link 10
is gone after consolidation. -/
theorem claim_C1_witness :
    dictLookup (consolidatePhase 7 2 exNetG).link_dict 10 = none :=
  (claim_C1_conservation exNetG (by decide) 7 2 0
      ((exNetG.node_dict.filter
        (fun pr => pr.2.main_node_id = some 0)).map Prod.snd)
      (by decide) (by decide) 10 (mkLink 10 1 2 5) (by decide)).2.1
    (by decide) (by decide)

/-- Witness for C6 on the two-group example: the crossing link 30 ends up
between the two replacement nodes, in partition order. -/
theorem claim_C6_witness :
    ∃ l' ndA ndB,
      dictLookup (consolidateGroups 7 2
        (buildNodeGroups exNetCross.node_dict) exNetCross).link_dict 30
          = some l' ∧
      dictLookup (consolidateGroups 7 2
        (buildNodeGroups exNetCross.node_dict) exNetCross).node_dict
          l'.from_node = some ndA ∧ ndA.main_node_id = some 7 ∧
      dictLookup (consolidateGroups 7 2
        (buildNodeGroups exNetCross.node_dict) exNetCross).node_dict
          l'.to_node = some ndB ∧ ndB.main_node_id = some 8 :=
  claim_C6_cross_group_rewiring exNetCross (by decide) 7 2
    (buildNodeGroups exNetCross.node_dict) (List.Perm.refl _)
    7 ((exNetCross.node_dict.filter
      (fun pr => pr.2.main_node_id = some 7)).map Prod.snd)
    8 ((exNetCross.node_dict.filter
      (fun pr => pr.2.main_node_id = some 8)).map Prod.snd)
    (by decide) (by decide) (by decide) (by decide) (by decide)
    30 (mkLink 30 2 3 4) (by decide) (by decide) (by decide)

/-- Witness for C7 on the grouped example chain: the consolidated node's
coordinates are the rounded means of its three members' coordinates. -/
theorem claim_C7_witness :
    ∃ nd, dictLookup (consolidatePhase 7 2 exNetG).node_dict nd.node_id
        = some nd ∧
      nd.main_node_id = some 0 ∧
      nd.x = pyRound 7 (((((exNetG.node_dict.filter
        (fun pr => pr.2.main_node_id = some 0)).map Prod.snd).map
          Node.x).sum) / ((exNetG.node_dict.filter
        (fun pr => pr.2.main_node_id = some 0)).map Prod.snd).length) ∧
      nd.y = pyRound 7 (((((exNetG.node_dict.filter
        (fun pr => pr.2.main_node_id = some 0)).map Prod.snd).map
          Node.y).sum) / ((exNetG.node_dict.filter
        (fun pr => pr.2.main_node_id = some 0)).map Prod.snd).length) ∧
      nd.xy_x = pyRound 2 (((((exNetG.node_dict.filter
        (fun pr => pr.2.main_node_id = some 0)).map Prod.snd).map
          Node.xy_x).sum) / ((exNetG.node_dict.filter
        (fun pr => pr.2.main_node_id = some 0)).map Prod.snd).length) ∧
      nd.xy_y = pyRound 2 (((((exNetG.node_dict.filter
        (fun pr => pr.2.main_node_id = some 0)).map Prod.snd).map
          Node.xy_y).sum) / ((exNetG.node_dict.filter
        (fun pr => pr.2.main_node_id = some 0)).map Prod.snd).length) :=
  (claim_C7_rounded_mean_coordinates exNetG (by decide) 7 2 0
    ((exNetG.node_dict.filter
      (fun pr => pr.2.main_node_id = some 0)).map Prod.snd)
    (by decide) (by decide)).imp
    (fun nd h => ⟨h.1, h.2.1, h.2.2.1, h.2.2.2.1, h.2.2.2.2.1,
      h.2.2.2.2.2⟩)

/-- Witness for C10 on the grouped example chain (well-formed, so the
replacement node survives). -/
theorem claim_C10_witness :
    ∃ nd, dictLookup (consolidatePhase 7 2 exNetG).node_dict nd.node_id
        = some nd ∧ nd.main_node_id = some 0 :=
  claim_C10_fresh_counter exNetG (by decide) 7 2 0
    ((exNetG.node_dict.filter
      (fun pr => pr.2.main_node_id = some 0)).map Prod.snd)
    (by decide) (by decide)

/-- Witness for C4 on the grouped example chain: the surviving link 12,
rewired to the replacement node 5, has both endpoints present. -/
theorem claim_C4_witness :
    (dictLookup
      (consolidateComplexIntersections exNetG false 10 7 2).node_dict
      (⟨12, 5, 4, 50⟩ : Link).from_node).isSome ∧
    (dictLookup
      (consolidateComplexIntersections exNetG false 10 7 2).node_dict
      (⟨12, 5, 4, 50⟩ : Link).to_node).isSome :=
  claim_C4_no_dangling exNetG (by decide) false 10 7 2 12
    ⟨12, 5, 4, 50⟩ (by decide)

end OsmComplexIntersection
